import Mathlib

/-!
Verification of the acorn-db storage engine (src/acorn-server/app.py).

The development shallowly embeds the engine's components:
* `BPlusTree` — the B+ tree index (`BPlusTreeNode`, `search`, `insert`,
  `_insert_non_full`, `_split_child`, `range_query`); nodes are height-indexed
  (every child list of the Python tree holds nodes of equal depth, and only a
  root split increases the height), the leaf chain is the in-order sequence of
  leaves (splits link a new leaf right after the split leaf, so the `next`
  chain always coincides with the left-to-right order of the leaves), and leaf
  buckets are stored as indices into a bucket store to model Python's aliasing
  of the bucket lists that `search` returns and callers mutate in place.
* `WriteAheadLog` — the WAL (`append`, `checkpoint`, `_load_wal`, `clear`);
  the persisted file is modelled as the list of entries written to it, and
  timestamps are omitted (wall-clock time, irrelevant to every claim).
* `Table`, `PaymentRDBMS` — tables, index registry, `_create_table`,
  `_create_index`, `_insert`, `_filter_rows`, snapshots.

Scalar cell values are integers or strings (`Value`); Python floats are not
modelled (no claim depends on them).
-/

/-! ### B+ tree (app.py lines 17-128) -/

/-- The fixed B+ tree order: every `BPlusTree(order=4)` in the source. -/
def treeOrder : Nat := 4

/-- A leaf node: parallel `keys` / `values` lists; `values` holds bucket ids
into a bucket store (Python stores the bucket list objects themselves; ids
model the sharing of those mutable lists).  The `next` pointer is not a field:
the leaf chain is recovered as the in-order sequence of leaves. -/
structure LeafNode (κ : Type) where
  keys : List κ
  values : List Nat
deriving DecidableEq, Repr

/-- An internal node: `keys` and the parallel `children` list. -/
structure InnerNode (κ : Type) (child : Type) where
  keys : List κ
  children : List child
deriving DecidableEq, Repr

/-- `BPlusTreeNode`, indexed by height: all children of a node of the Python
tree sit at the same depth, so the index is faithful to every reachable
tree. -/
@[reducible] def BNode (κ : Type) : Nat → Type
  | 0 => LeafNode κ
  | h + 1 => InnerNode κ (BNode κ h)

variable {κ : Type} [LinearOrder κ] [Inhabited κ] {ρ : Type}

/-- `bisect.bisect_left(keys, key)` on a sorted list: the number of entries
strictly below `key`, i.e. the first position whose entry is `≥ key`. -/
def bisect_left (l : List κ) (x : κ) : Nat := l.countP (fun a => decide (a < x))

/-- Number of keys of a node (`len(node.keys)`). -/
def keyCount : {h : Nat} → BNode κ h → Nat
  | 0, n => n.keys.length
  | _ + 1, n => n.keys.length

/-- `BPlusTree._split_child(parent, index)` (lines 77-107), acting on the
parent's `keys`/`children`: splits the full child at `index` at
`mid = order // 2`; a leaf split copies the new right sibling's first key up,
an internal split moves the last key of the lower half up.  The Python relink
`full_node.next = new_node` is implicit: the new leaf sits right after the old
one in the in-order leaf sequence. -/
def _split_child : {h : Nat} → List κ → List (BNode κ h) → Nat → List κ × List (BNode κ h)
  | 0, keys, children, index =>
    match children[index]? with
    | none => (keys, children)  -- unreachable: Python would raise IndexError
    | some full_node =>
      let mid := treeOrder / 2
      let new_node : LeafNode κ := ⟨full_node.keys.drop mid, full_node.values.drop mid⟩
      let trimmed : LeafNode κ := ⟨full_node.keys.take mid, full_node.values.take mid⟩
      (keys.insertIdx index (new_node.keys.getD 0 default),
       (children.set index trimmed).insertIdx (index + 1) new_node)
  | _ + 1, keys, children, index =>
    match children[index]? with
    | none => (keys, children)  -- unreachable: Python would raise IndexError
    | some full_node =>
      let mid := treeOrder / 2
      let new_node := ⟨full_node.keys.drop mid, full_node.children.drop mid⟩
      let low_keys := full_node.keys.take mid
      let trimmed := ⟨low_keys.dropLast, full_node.children.take mid⟩
      (keys.insertIdx index (low_keys.getLastD default),
       (children.set index trimmed).insertIdx (index + 1) new_node)

/-- `BPlusTree._insert_non_full(node, key, value)` (lines 59-75): sorted
insertion at a leaf; at an internal node, pre-emptively split a full child,
then recurse into the child chosen by `bisect_left` (stepping right past the
freshly inserted separator when `key` exceeds it). -/
def _insert_non_full : {h : Nat} → BNode κ h → κ → Nat → BNode κ h
  | 0, n, key, value =>
    let i := bisect_left n.keys key
    ⟨n.keys.insertIdx i key, n.values.insertIdx i value⟩
  | _ + 1, n, key, value =>
    let i0 := bisect_left n.keys key
    let needSplit := match n.children[i0]? with
      | some c => decide (treeOrder - 1 ≤ keyCount c)
      | none => false
    let ps := if needSplit then _split_child n.keys n.children i0 else (n.keys, n.children)
    let i := if needSplit && decide (ps.1.getD i0 default < key) then i0 + 1 else i0
    match ps.2[i]? with
    | none => ⟨ps.1, ps.2⟩  -- unreachable: Python would raise IndexError
    | some c => ⟨ps.1, ps.2.set i (_insert_non_full c key value)⟩

/-- `BPlusTree`: the root node together with its height. -/
structure BPlusTree (κ : Type) where
  height : Nat
  root : BNode κ height

/-- A fresh tree: a single empty leaf (`BPlusTree.__init__`). -/
def BPlusTree.empty : BPlusTree κ := ⟨0, ⟨[], []⟩⟩

/-- `BPlusTree.insert(key, value)` (lines 47-57): if the root is full, split
it under a new root (raising the height), then insert into the non-full
root. -/
def BPlusTree.insert (t : BPlusTree κ) (key : κ) (value : Nat) : BPlusTree κ :=
  if treeOrder - 1 ≤ keyCount t.root then
    let ps := _split_child ([] : List κ) [t.root] 0
    ⟨t.height + 1, _insert_non_full (⟨ps.1, ps.2⟩ : BNode κ (t.height + 1)) key value⟩
  else
    ⟨t.height, _insert_non_full t.root key value⟩

/-- The descent loop of `BPlusTree.search` and the leaf lookup
(`keys.index(key)` caught to `None`, then `values[idx]`). -/
def search_node : {h : Nat} → BNode κ h → κ → Option Nat
  | 0, n, key =>
    (n.keys.findIdx? (fun a => a == key)).bind (fun idx => n.values[idx]?)
  | _ + 1, n, key =>
    match n.children[bisect_left n.keys key]? with
    | none => none  -- unreachable: Python would raise IndexError
    | some c => search_node c key

/-- `BPlusTree.search(key)` (lines 33-45): returns the bucket id found at the
routed leaf, or `none`. -/
def BPlusTree.search (t : BPlusTree κ) (key : κ) : Option Nat := search_node t.root key

/-- The bucket (list of rows) `search` returns, read through the store. -/
def BPlusTree.search_rows (t : BPlusTree κ) (store : List (List ρ)) (key : κ) :
    Option (List ρ) :=
  (t.search key).bind (fun bid => store[bid]?)

/-- The in-order sequence of leaves of a subtree.  Python's leaf chain links a
new leaf right after the leaf it was split from, so the chain from the
leftmost leaf is exactly this sequence. -/
def leafList : {h : Nat} → BNode κ h → List (LeafNode κ)
  | 0, n => [n]
  | _ + 1, n => n.children.flatMap leafList

/-- Position (in the in-order leaf sequence) of the leaf reached by the
`bisect_left` descent of `range_query` for `min_key`. -/
def routeIdx : {h : Nat} → BNode κ h → κ → Nat
  | 0, _, _ => 0
  | _ + 1, n, key =>
    let i := bisect_left n.keys key
    ((n.children.take i).map (fun c => (leafList c).length)).sum +
      (match n.children[i]? with
       | none => 0  -- unreachable: Python would raise IndexError
       | some c => routeIdx c key)

/-- The inner loop of `range_query` over one leaf: extend the result with the
bucket of each key in `[min, max]`; return early (second component `true`) as
soon as a key exceeds `max`. -/
def scanLeaf (store : List (List ρ)) (minK maxK : κ) :
    List (κ × Nat) → List ρ → List ρ × Bool
  | [], acc => (acc, false)
  | (key, bid) :: rest, acc =>
    if minK ≤ key ∧ key ≤ maxK then
      scanLeaf store minK maxK rest (acc ++ store.getD bid [])
    else if maxK < key then (acc, true)
    else scanLeaf store minK maxK rest acc

/-- The outer loop of `range_query`: walk the leaf chain until exhausted or
the early return fires. -/
def scanChain (store : List (List ρ)) (minK maxK : κ) :
    List (LeafNode κ) → List ρ → List ρ
  | [], acc => acc
  | n :: rest, acc =>
    let step := scanLeaf store minK maxK (n.keys.zip n.values) acc
    if step.2 then step.1 else scanChain store minK maxK rest step.1

/-- `BPlusTree.range_query(min_key, max_key)` (lines 109-128): descend to the
leaf `bisect_left` chooses for `min_key`, then scan the leaf chain. -/
def BPlusTree.range_query (t : BPlusTree κ) (store : List (List ρ)) (minK maxK : κ) :
    List ρ :=
  scanChain store minK maxK ((leafList t.root).drop (routeIdx t.root minK)) []

/-- The bucket-maintenance pattern both `_create_index` (lines 358-363) and
`_insert` (lines 423-427) use:
`existing = tree.search(value) or []; existing.append(row);
tree.insert(value, existing)`.
When `search` finds a (non-empty) bucket, the bucket list is mutated in place
and the same list object is inserted again under the key; otherwise a fresh
one-row bucket is inserted. -/
def index_add (t : BPlusTree κ) (store : List (List ρ)) (key : κ) (row : ρ) :
    BPlusTree κ × List (List ρ) :=
  match t.search key with
  | some bid =>
    match store[bid]? with
    | some b =>
      if b.isEmpty then (t.insert key store.length, store ++ [[row]])
      else (t.insert key bid, store.set bid (b ++ [row]))
    | none => (t.insert key store.length, store ++ [[row]])  -- unreachable: dangling id
  | none => (t.insert key store.length, store ++ [[row]])

/-- Fold `index_add` over a sequence of `(key, row)` insertions, starting from
an empty tree and empty store. -/
def index_add_all (ops : List (κ × ρ)) : BPlusTree κ × List (List ρ) :=
  ops.foldl (fun ts p => index_add ts.1 ts.2 p.1 p.2) (BPlusTree.empty, [])

/-- The keys list of every node of a subtree (the node's own list first, then
the nodes of each child in order). -/
def all_node_keys : {h : Nat} → BNode κ h → List (List κ)
  | 0, n => [n.keys]
  | _ + 1, n => n.keys :: n.children.flatMap all_node_keys

/-! ### Scalar values and rows -/

/-- A scalar cell value: integer or text (`_parse_value` produces `int` or
quoted strings; floats are not modelled). -/
inductive Value where
  | int (n : Int)
  | str (s : String)
deriving DecidableEq, Repr

/-- Ordering on values, by constructor then by the underlying order (Python
only ever compares keys of one type inside an index; the cross-constructor
cases are an arbitrary total completion). -/
def Value.le : Value → Value → Prop
  | .int a, .int b => a ≤ b
  | .int _, .str _ => True
  | .str _, .int _ => False
  | .str a, .str b => a ≤ b

instance Value.decLe : ∀ a b : Value, Decidable (Value.le a b)
  | .int a, .int b => inferInstanceAs (Decidable (a ≤ b))
  | .int _, .str _ => .isTrue trivial
  | .str _, .int _ => .isFalse (fun h => h)
  | .str a, .str b => inferInstanceAs (Decidable (a ≤ b))

instance : LinearOrder Value where
  le := Value.le
  le_refl a := by cases a <;> simp [Value.le]
  le_trans a b c := by
    cases a <;> cases b <;> cases c <;> simp [Value.le] <;> exact fun h1 h2 => le_trans h1 h2
  le_antisymm a b := by
    cases a <;> cases b
    · exact fun h1 h2 => congrArg Value.int (le_antisymm h1 h2)
    · exact fun _ h2 => h2.elim
    · exact fun h1 _ => h1.elim
    · exact fun h1 h2 => congrArg Value.str (le_antisymm h1 h2)
  le_total a b := by cases a <;> cases b <;> simp [Value.le] <;> exact le_total _ _
  decidableLE := Value.decLe

instance : Inhabited Value := ⟨.int 0⟩

/-- A row: a Python dict from column name to value, modelled as an assoc list
in insertion order. -/
abbrev Row : Type := List (String × Value)

/-- `row.get(col)` / `col in row`. -/
def dict_get (row : Row) (col : String) : Option Value :=
  (List.find? (fun p => p.1 == col) row).map (fun p => p.2)

/-- `row[col] = v`: overwrite in place if the key exists, else append. -/
def dict_set (row : Row) (col : String) (v : Value) : Row :=
  if (List.any row (fun p => p.1 == col)) then
    List.map (fun p => if p.1 == col then (col, v) else p) row
  else row ++ [(col, v)]

/-! ### Write-ahead log (app.py lines 130-204) -/

/-- Payload of a WAL entry (`data`): a column list for CREATE_TABLE, a row
for INSERT/DELETE, old and new row images for UPDATE. -/
inductive WalData where
  | cols (cs : List (String × String × Bool × Bool))
  | row (r : Row)
  | oldNew (o n : Row)
deriving DecidableEq, Repr

/-- `WALEntry` (lines 132-148); the wall-clock `timestamp` field is omitted. -/
structure WALEntry where
  operation : String
  table : String
  data : WalData
  lsn : Nat
deriving DecidableEq, Repr

/-- `WriteAheadLog` state: the in-memory `entries`, the contents of the
`wal.log` file (`persisted`), `lsn_counter` and `checkpoint_lsn`. -/
structure WriteAheadLog where
  entries : List WALEntry
  persisted : List WALEntry
  lsn_counter : Nat
  checkpoint_lsn : Nat
deriving DecidableEq, Repr

/-- A `WriteAheadLog()` constructed with no `wal.log` file present. -/
def WriteAheadLog.fresh : WriteAheadLog := ⟨[], [], 0, 0⟩

/-- `WriteAheadLog.append(operation, table, data)` (lines 159-172): assign
the current counter as LSN, bump the counter, append in memory and to disk,
checkpoint once more than 100 entries accumulated since the last checkpoint;
return the assigned LSN. -/
def WriteAheadLog.append (w : WriteAheadLog) (operation table : String) (data : WalData) :
    WriteAheadLog × Nat :=
  let e : WALEntry := ⟨operation, table, data, w.lsn_counter⟩
  let w := { w with lsn_counter := w.lsn_counter + 1,
                    entries := w.entries ++ [e],
                    persisted := w.persisted ++ [e] }
  let w := if 100 < w.entries.length - w.checkpoint_lsn
           then { w with checkpoint_lsn := w.entries.length } else w
  (w, e.lsn)

/-- Constructing a `WriteAheadLog()` over an existing `wal.log`
(`_load_wal`, lines 184-198): entries are read back in order and the counter
resumes at `max(0, max persisted lsn + 1)`. -/
def WriteAheadLog.load (persisted : List WALEntry) : WriteAheadLog :=
  { entries := persisted, persisted := persisted,
    lsn_counter := persisted.foldl (fun acc e => max acc (e.lsn + 1)) 0,
    checkpoint_lsn := 0 }

/-- `WriteAheadLog.clear()` (lines 200-204): removes the file and the
in-memory entries; the counter is left as is. -/
def WriteAheadLog.clear (w : WriteAheadLog) : WriteAheadLog :=
  { w with entries := [], persisted := [] }

/-- One step of a WAL lifetime: an `append`, a process restart (a new
`WriteAheadLog` loading whatever `wal.log` holds), or a `clear()`. -/
inductive WalOp where
  | append (operation table : String) (data : WalData)
  | restart
  | clear
deriving DecidableEq, Repr

/-- Run a sequence of WAL lifetime steps, collecting the LSNs the `append`
calls return. -/
def runWal : WriteAheadLog → List WalOp → WriteAheadLog × List Nat
  | w, [] => (w, [])
  | w, WalOp.append operation table data :: ops =>
    let step := w.append operation table data
    let rest := runWal step.1 ops
    (rest.1, step.2 :: rest.2)
  | w, WalOp.restart :: ops => runWal (WriteAheadLog.load w.persisted) ops
  | w, WalOp.clear :: ops => runWal w.clear ops

/-- The number of `append` steps in a WAL lifetime. -/
def countAppends (ops : List WalOp) : Nat :=
  ops.countP (fun o => match o with | WalOp.append _ _ _ => true | _ => false)

/-! ### Tables and the engine (app.py lines 241-644) -/

/-- A parsed column definition dict
`{'name', 'type', 'is_primary', 'is_unique'}`. -/
structure Column where
  name : String
  type : String
  is_primary : Bool
  is_unique : Bool
deriving DecidableEq, Repr

/-- `Table` (lines 243-256). -/
structure Table where
  name : String
  columns : List Column
  rows : List Row
  primary_key : Option String
  unique_columns : List String
  next_id : Int
deriving DecidableEq, Repr

/-- `Table.__init__(name, columns, primary_key)`: empty rows, `next_id = 1`,
unique columns collected from the flagged column definitions (a Python set,
modelled as the list in column order). -/
def Table.init (name : String) (columns : List Column) (primary_key : Option String) :
    Table :=
  { name, columns, rows := [], primary_key,
    unique_columns := (columns.filter (fun c => c.is_unique)).map (fun c => c.name),
    next_id := 1 }

/-- One registered index: `{'table', 'column', 'tree'}` plus the bucket store
backing the tree's bucket ids. -/
structure IndexData where
  table : String
  column : String
  tree : BPlusTree Value
  store : List (List Row)

/-- The engine state owned by `PaymentRDBMS`: `self.tables`, `self.indexes`
(both Python dicts, modelled as insertion-ordered assoc lists) and
`self.wal`. -/
structure EngineState where
  tables : List (String × Table)
  indexes : List (String × IndexData)
  wal : WriteAheadLog

/-- A freshly constructed engine with no snapshot and no `wal.log`. -/
def EngineState.fresh : EngineState := ⟨[], [], WriteAheadLog.fresh⟩

/-- Python dict assignment `d[k] = v` on an assoc list: overwrite in place
(keeping the entry's position) when the key exists, else append. -/
def assoc_set {β : Type} (l : List (String × β)) (k : String) (v : β) :
    List (String × β) :=
  if l.any (fun p => p.1 == k) then
    l.map (fun p => if p.1 == k then (k, v) else p)
  else l ++ [(k, v)]

/-- The index-build loop of `_create_index` (lines 358-363): fold every row
whose indexed column is present into a fresh tree with the
search/append/re-insert pattern. -/
def build_index (rows : List Row) (column_name : String) :
    BPlusTree Value × List (List Row) :=
  rows.foldl (fun ts row =>
    match dict_get row column_name with
    | some value => index_add ts.1 ts.2 value row
    | none => ts) (BPlusTree.empty, [])

/-- `PaymentRDBMS._create_index(table_name, column_name, index_name)`
(lines 351-369): registers, under `index_name` or the canonical
`table_column_idx` key, a tree built from the current rows of the table (an
empty tree when the table is unknown). -/
def _create_index (st : EngineState) (table_name column_name : String)
    (index_name : Option String) : EngineState :=
  let key := index_name.getD (table_name ++ "_" ++ column_name ++ "_idx")
  let ts := match st.tables.lookup table_name with
    | some table => build_index table.rows column_name
    | none => (BPlusTree.empty, [])
  { st with indexes := assoc_set st.indexes key ⟨table_name, column_name, ts.1, ts.2⟩ }

/-- One column's turn of the `_create_table` loop (lines 338-342): create the
index for the column when it is flagged primary, and again when flagged
unique. -/
def _create_table_index_pass (table_name : String) (acc : EngineState) (col : Column) :
    EngineState :=
  let acc1 := if col.is_primary then _create_index acc table_name col.name none else acc
  if col.is_unique then _create_index acc1 table_name col.name none else acc1

/-- `PaymentRDBMS._create_table(sql)` (lines 310-349), past the regex: takes
the parsed column definitions.  For each column flagged primary or unique an
index is created **while the previous binding of the name, if any, is still
registered**; the table itself is registered afterwards, and the name is never
checked for prior registration.  Appends a CREATE_TABLE WAL entry and returns
the success message. -/
def _create_table (st : EngineState) (table_name : String) (columns : List Column) :
    EngineState × Except String String :=
  let st := columns.foldl (_create_table_index_pass table_name) st
  let primary_key := ((columns.filter (fun c => c.is_primary)).getLast?).map (fun c => c.name)
  let table := Table.init table_name columns primary_key
  let st := { st with tables := assoc_set st.tables table_name table }
  let st := { st with wal := (st.wal.append "CREATE_TABLE" table_name
      (WalData.cols (columns.map (fun c => (c.name, c.type, c.is_primary, c.is_unique))))).1 }
  (st, Except.ok ("Table " ++ table_name ++ " created"))

/-- The row built by `_insert` (lines 400-408): auto-assign the primary key
from `next_id` when the caller did not supply it, then apply the
column/value assignments in order. -/
def buildInsertRow (table : Table) (columns : List String) (values : List Value) : Row :=
  let row : Row := match table.primary_key with
    | some pk => if columns.contains pk then [] else [(pk, Value.int table.next_id)]
    | none => []
  (columns.zip values).foldl (fun r cv => dict_set r cv.1 cv.2) row

/-- Whether `_insert` auto-assigns the primary key (and so advances
`next_id`). -/
def autoAssignsPk (table : Table) (columns : List String) : Bool :=
  match table.primary_key with
  | some pk => !(columns.contains pk)
  | none => false

/-- The `table.next_id += 1` mutation of `_insert` (line 405), applied
exactly when the primary key is auto-assigned. -/
def bumpNextId (table : Table) (columns : List String) : Table :=
  if autoAssignsPk table columns then { table with next_id := table.next_id + 1 }
  else table

/-- The unique-constraint check of `_insert` (lines 411-415): the first
unique column present in the new row whose value some existing row already
holds. -/
def uniqueViolation (table : Table) (row : Row) : Option String :=
  table.unique_columns.find? (fun ucol =>
    match dict_get row ucol with
    | some v => table.rows.any (fun er => dict_get er ucol == some v)
    | none => false)

/-- `PaymentRDBMS._insert(sql)` (lines 385-435), past the regex: takes the
parsed column names and values.  Builds the row (bumping `next_id` when the
primary key is auto-assigned — the bump happens before the constraint check
and is visible even when the insert fails), raises on a unique-constraint
duplicate, otherwise appends the row, folds it into every index registered on
the table, appends an INSERT WAL entry, and returns the inserted id. -/
def _insert (st : EngineState) (table_name : String) (columns : List String)
    (values : List Value) : EngineState × Except String (Option Value) :=
  match st.tables.lookup table_name with
  | none => (st, Except.error ("Table " ++ table_name ++ " does not exist"))
  | some table =>
    let row := buildInsertRow table columns values
    let table := bumpNextId table columns
    let st := { st with tables := assoc_set st.tables table_name table }
    match uniqueViolation table row with
    | some ucol => (st, Except.error ("Duplicate value for unique column " ++ ucol))
    | none =>
      let table := { table with rows := table.rows ++ [row] }
      let st := { st with tables := assoc_set st.tables table_name table }
      let st := { st with indexes := st.indexes.map (fun (p : String × IndexData) =>
        if p.2.table == table_name then
          match dict_get row p.2.column with
          | some value =>
            let ts := index_add p.2.tree p.2.store value row
            (p.1, { p.2 with tree := ts.1, store := ts.2 })
          | none => p
        else p) }
      let st := { st with wal := (st.wal.append "INSERT" table_name (WalData.row row)).1 }
      (st, Except.ok (match table.primary_key with
        | some pk => dict_get row pk
        | none => none))

/-- `PaymentRDBMS._filter_rows(table, rows, where_clause)` (lines 578-595),
past the regex: with the parsed `column = value` predicate, an exact-key
lookup through the index registered under the canonical
`table_column_idx` key when present (`results if results else []`), else a
full scan comparing the column for equality. -/
def _filter_rows (st : EngineState) (table : Table) (rows : List Row)
    (column : String) (value : Value) : List Row :=
  let index_key := table.name ++ "_" ++ column ++ "_idx"
  match st.indexes.lookup index_key with
  | some idx =>
    (match idx.tree.search_rows idx.store value with
     | some results => if results.isEmpty then [] else results
     | none => [])
  | none => rows.filter (fun row => dict_get row column == some value)

/-! ### Snapshots (app.py lines 208-239 and 269-284) -/

/-- The per-table record of a snapshot. -/
structure SnapshotTable where
  columns : List Column
  rows : List Row
  primary_key : Option String
  unique_columns : List String
  next_id : Int
deriving DecidableEq, Repr

/-- A snapshot: the serialized table set (the wall-clock timestamp is
omitted).  The JSON encoding is the identity on this data: integers, strings,
booleans, lists and string-keyed dicts all round-trip. -/
structure Snapshot where
  tables : List (String × SnapshotTable)
deriving DecidableEq, Repr

/-- `StorageManager.create_snapshot(tables)` (lines 213-232): serialize
columns, rows, primary key, unique columns and `next_id` of every table. -/
def create_snapshot (tables : List (String × Table)) : Snapshot :=
  ⟨tables.map (fun p =>
    (p.1, ⟨p.2.columns, p.2.rows, p.2.primary_key, p.2.unique_columns, p.2.next_id⟩))⟩

/-- The `Table` rebuilt from one snapshot record (lines 274-277). -/
def rebuildTable (name : String) (td : SnapshotTable) : Table :=
  { Table.init name td.columns td.primary_key with
    rows := td.rows, unique_columns := td.unique_columns, next_id := td.next_id }

/-- One table's turn of the `_load_from_snapshot` loop: register the rebuilt
table, then rebuild the primary-key index and the index of every unique
column from the restored rows. -/
def _load_snapshot_pass (st : EngineState) (p : String × SnapshotTable) : EngineState :=
  let table := rebuildTable p.1 p.2
  let st := { st with tables := assoc_set st.tables p.1 table }
  let st := match table.primary_key with
    | some pk => _create_index st p.1 pk none
    | none => st
  table.unique_columns.foldl (fun st col => _create_index st p.1 col none) st

/-- `PaymentRDBMS._load_from_snapshot` (lines 269-284): for every serialized
table, rebuild the `Table` (restoring rows, unique columns and `next_id`),
register it, and rebuild the indexes for the primary key and every unique
column from the restored rows. -/
def _load_from_snapshot (st : EngineState) (snapshot : Snapshot) : EngineState :=
  snapshot.tables.foldl _load_snapshot_pass st

/-! ### Concrete executions used by the refutations -/

/-- The rows a sequence of engine-pattern insertions inserted under one key
(the claimed content of that key's bucket). -/
def rows_inserted_under [DecidableEq κ] (ops : List (κ × ρ)) (k : κ) : List ρ :=
  (ops.filter (fun p => p.1 == k)).map (fun p => p.2)

/-- Engine-pattern insertions of keys 1,2,3,4 and then 3 again (rows are
numbered 1..5).  Inserting key 4 splits the root leaf `[1,2,3]` into `[1,2]`
and `[3,4]` with separator 3 copied up; the later `search(3)` descends with
`bisect_left`, lands in the left leaf, misses the bucket of key 3, and the
re-insertion places a second key 3 with a fresh one-row bucket in the left
leaf. -/
def c1_ops : List (Int × Nat) := [(1, 1), (2, 2), (3, 3), (4, 4), (3, 5)]

/-- The tree and bucket store after `c1_ops`. -/
def c1_state : BPlusTree Int × List (List Nat) := index_add_all c1_ops

/-- Engine-pattern insertion of the same key twice: the second insertion
finds the bucket, appends to it, and re-inserts the key, duplicating it in
the leaf (both slots share the same bucket). -/
def c7_ops : List (Int × Nat) := [(1, 1), (1, 2)]

/-- The tree and bucket store after `c7_ops`. -/
def c7_state : BPlusTree Int × List (List Nat) := index_add_all c7_ops

/-- Engine state for the C3 refutation: `create_table t(amount)` (no flags,
so no auto index), four inserts with distinct values 10,20,30,40, then
`create_index` on `amount`.  Building the index splits the leaf `[10,20,30]`
at the fourth insert with separator 30 copied up, after which the exact-key
index lookup of 30 misses. -/
def c3_state : EngineState :=
  let st := (_create_table EngineState.fresh "t" [⟨"amount", "INTEGER", false, false⟩]).1
  let st := (_insert st "t" ["amount"] [Value.int 10]).1
  let st := (_insert st "t" ["amount"] [Value.int 20]).1
  let st := (_insert st "t" ["amount"] [Value.int 30]).1
  let st := (_insert st "t" ["amount"] [Value.int 40]).1
  _create_index st "t" "amount" none

/-- The table `t` of `c3_state`. -/
def c3_table : Table := (c3_state.tables.lookup "t").getD (Table.init "t" [] none)

/-! ### Claim theorems: C1, C2 (counterexample), C3, C7 -/

/-- **C1** (code bug, evaluated at the failing input): after engine-pattern
insertions of keys 1,2,3,4,3, `search(3)` returns only the bucket of the
re-insertion, not the bucket of all rows inserted under key 3 (which is
`[3, 5]`): the `bisect_left` descent sends a key equal to a separator into
the left child, while the leaf split placed that key's bucket in the right
child. -/
theorem C1_search_returns_wrong_bucket :
    c1_state.1.search_rows c1_state.2 3 = some [5] ∧
    rows_inserted_under c1_ops 3 = [3, 5] ∧
    c1_state.1.search_rows c1_state.2 3 ≠ some (rows_inserted_under c1_ops 3) := by
  refine ⟨by decide, by decide, by decide⟩

/-- **C2** (counterexample): re-inserting an existing key the way the Engine
grows a bucket duplicates the key inside the leaf, so the keys of a node are
not unique (and not strictly ascending): after inserting key 1 twice the only
node holds keys `[1, 1]`. -/
theorem C2_cex_reinsert_duplicates_key :
    all_node_keys c7_state.1.root = [[1, 1]] ∧
    ¬ (∀ ks ∈ all_node_keys c7_state.1.root, ks.Nodup) := by
  refine ⟨by decide, by decide⟩

/-- **C3** (code bug, evaluated at the failing input): on the reachable state
`c3_state` (create_table, four inserts with values 10,20,30,40, create_index
on `amount`), filtering `amount = 30` through the registered index returns
`[]`, while the full table scan returns the matching row. -/
theorem C3_index_filter_differs_from_scan :
    _filter_rows c3_state c3_table c3_table.rows "amount" (Value.int 30) = [] ∧
    c3_table.rows.filter (fun row => dict_get row "amount" == some (Value.int 30))
      = [[("amount", Value.int 30)]] ∧
    _filter_rows c3_state c3_table c3_table.rows "amount" (Value.int 30)
      ≠ c3_table.rows.filter (fun row => dict_get row "amount" == some (Value.int 30)) := by
  refine ⟨by decide, by decide, by decide⟩

/-- **C7** (code bug, evaluated at the failing input): after engine-pattern
insertions of key 1 twice, `range_query(0, 2)` returns the shared bucket of
key 1 twice — `[1, 2, 1, 2]` — instead of the concatenation of the buckets of
the inserted keys in range, which is `[1, 2]`. -/
theorem C7_range_query_repeats_bucket :
    c7_state.1.range_query c7_state.2 0 2 = [1, 2, 1, 2] ∧
    rows_inserted_under c7_ops 1 = [1, 2] ∧
    c7_state.1.range_query c7_state.2 0 2 ≠ rows_inserted_under c7_ops 1 := by
  refine ⟨by decide, by decide, by decide⟩


/-! ### Assoc-list dictionary lemmas -/

theorem lookup_map_set {β : Type} (l : List (String × β)) (k : String) (v : β)
    (h : l.any (fun p => p.1 == k) = true) :
    (l.map (fun p => if p.1 == k then (k, v) else p)).lookup k = some v := by
  induction l with
  | nil => simp at h
  | cons p t ih =>
    simp only [List.any_cons, Bool.or_eq_true] at h
    by_cases hk : (p.1 == k) = true
    · rw [List.map_cons, if_pos hk]
      simp only [List.lookup, beq_self_eq_true]
    · have ht : t.any (fun p => p.1 == k) = true := by
        rcases h with h | h
        · exact absurd h hk
        · exact h
      have hk2 : (k == p.1) = false := by
        refine beq_eq_false_iff_ne.mpr (fun e => hk ?_)
        exact beq_iff_eq.mpr e.symm
      rw [List.map_cons, if_neg hk]
      simp only [List.lookup, hk2]
      exact ih ht

theorem lookup_append_single {β : Type} (l : List (String × β)) (k : String) (v : β)
    (h : l.any (fun p => p.1 == k) = false) :
    (l ++ [(k, v)]).lookup k = some v := by
  induction l with
  | nil => simp only [List.nil_append, List.lookup, beq_self_eq_true]
  | cons p t ih =>
    simp only [List.any_cons, Bool.or_eq_false_iff] at h
    have hk2 : (k == p.1) = false := by
      refine beq_eq_false_iff_ne.mpr (fun e => ?_)
      have hp := h.1
      rw [e] at hp
      simp at hp
    simp only [List.cons_append, List.lookup, hk2]
    exact ih h.2

/-- Dict assignment then lookup of the same key. -/
theorem lookup_assoc_set_self {β : Type} (l : List (String × β)) (k : String) (v : β) :
    (assoc_set l k v).lookup k = some v := by
  unfold assoc_set
  split
  · exact lookup_map_set l k v (by assumption)
  · next hn =>
    rw [Bool.not_eq_true] at hn
    exact lookup_append_single l k v hn

theorem lookup_map_set_ne {β : Type} (l : List (String × β)) (k k' : String) (v : β)
    (h : k' ≠ k) :
    (l.map (fun p => if p.1 == k' then (k', v) else p)).lookup k = l.lookup k := by
  have hkk : (k == k') = false := beq_eq_false_iff_ne.mpr (fun e => h e.symm)
  induction l with
  | nil => simp
  | cons p t ih =>
    by_cases hp : (p.1 == k') = true
    · have hpk : (k == p.1) = false := by
        rw [beq_iff_eq.mp hp]
        exact hkk
      rw [List.map_cons, if_pos hp]
      simp only [List.lookup, hkk, hpk]
      exact ih
    · rw [List.map_cons, if_neg hp]
      simp only [List.lookup]
      cases hkp : (k == p.1)
      · simpa only [hkp] using ih
      · simp only [hkp]

theorem lookup_append_single_ne {β : Type} (l : List (String × β)) (k k' : String) (v : β)
    (h : k' ≠ k) : (l ++ [(k', v)]).lookup k = l.lookup k := by
  have hkk : (k == k') = false := beq_eq_false_iff_ne.mpr (fun e => h e.symm)
  induction l with
  | nil => simp only [List.nil_append, List.lookup, hkk]
  | cons p t ih =>
    simp only [List.cons_append, List.lookup]
    cases hkp : (k == p.1)
    · simpa only [hkp] using ih
    · simp only [hkp]

/-- Dict assignment leaves the binding of any other key unchanged. -/
theorem lookup_assoc_set_ne {β : Type} (l : List (String × β)) (k k' : String) (v : β)
    (h : k' ≠ k) : (assoc_set l k' v).lookup k = l.lookup k := by
  unfold assoc_set
  split
  · exact lookup_map_set_ne l k k' v h
  · exact lookup_append_single_ne l k k' v h

/-! ### Claim C5: create_table on an existing name -/

/-- Columns of the concrete table used in the C5 and C10 witnesses. -/
def c5_cols : List Column :=
  [⟨"id", "INTEGER", true, false⟩, ⟨"email", "TEXT", false, true⟩]

/-- Engine state with a table `u` already registered (and one row inserted,
for the C10 witness). -/
def c5_state : EngineState :=
  let st := (_create_table EngineState.fresh "u" c5_cols).1
  (_insert st "u" ["email"] [Value.str "a"]).1

/-- The registered table `u` of `c5_state`. -/
def c5_old : Table := (c5_state.tables.lookup "u").getD (Table.init "u" [] none)

/-- **C5** (counterexample): with table `u` already registered, `create_table`
for the same name does not fail with a SchemaError — it succeeds. -/
theorem C5_cex_create_table_existing_name_succeeds :
    (c5_state.tables.lookup "u").isSome = true ∧
    (_create_table c5_state "u" c5_cols).2 = Except.ok "Table u created" := by
  refine ⟨by decide, rfl⟩

/-- **C5** (amended): `create_table` with an already-registered name succeeds
and silently replaces the registered table with the freshly built (empty)
one. -/
theorem C5_amended_create_table_replaces (st : EngineState) (table_name : String)
    (columns : List Column) (old : Table)
    (_h : st.tables.lookup table_name = some old) :
    (_create_table st table_name columns).2
      = Except.ok ("Table " ++ table_name ++ " created") ∧
    (_create_table st table_name columns).1.tables.lookup table_name
      = some (Table.init table_name columns
          (((columns.filter (fun c => c.is_primary)).getLast?).map (fun c => c.name))) := by
  refine ⟨rfl, ?_⟩
  exact lookup_assoc_set_self _ _ _

/-- Witness for `C5_amended_create_table_replaces` at a concrete state. -/
theorem C5_amended_witness :
    c5_state.tables.lookup "u" = some c5_old ∧
    ((_create_table c5_state "u" c5_cols).2 = Except.ok ("Table " ++ "u" ++ " created") ∧
     (_create_table c5_state "u" c5_cols).1.tables.lookup "u"
       = some (Table.init "u" c5_cols
           (((c5_cols.filter (fun c => c.is_primary)).getLast?).map (fun c => c.name)))) :=
  ⟨by decide, C5_amended_create_table_replaces c5_state "u" c5_cols c5_old (by decide)⟩

/-! ### Claims C4 and C9: failing inserts -/

theorem bumpNextId_rows (t : Table) (c : List String) : (bumpNextId t c).rows = t.rows := by
  unfold bumpNextId
  split <;> rfl

theorem bumpNextId_unique (t : Table) (c : List String) :
    (bumpNextId t c).unique_columns = t.unique_columns := by
  unfold bumpNextId
  split <;> rfl

theorem bumpNextId_next_id (t : Table) (c : List String) (h : autoAssignsPk t c = true) :
    (bumpNextId t c).next_id = t.next_id + 1 := by
  unfold bumpNextId
  rw [if_pos h]

/-- If some unique column of the new row duplicates an existing row's value,
the constraint check of `_insert` fires. -/
theorem uniqueViolation_isSome (table : Table) (row : Row)
    (hdup : ∃ ucol ∈ table.unique_columns, ∃ v, dict_get row ucol = some v ∧
      ∃ er ∈ table.rows, dict_get er ucol = some v) :
    ∃ u, uniqueViolation table row = some u := by
  obtain ⟨ucol, hmem, v, hget, er, her, hger⟩ := hdup
  have hp : (fun ucol => match dict_get row ucol with
      | some v => table.rows.any (fun er2 => dict_get er2 ucol == some v)
      | none => false) ucol = true := by
    simp only [hget]
    exact List.any_eq_true.mpr ⟨er, her, by simp [hger]⟩
  have h2 : (uniqueViolation table row).isSome := by
    unfold uniqueViolation
    exact List.find?_isSome.mpr ⟨ucol, hmem, hp⟩
  exact Option.isSome_iff_exists.mp h2

/-- **C4.** An insert whose new row duplicates, in some unique column, a value
an existing row already holds fails with the ConstraintViolation error and
leaves the table's row sequence and the WAL unchanged. -/
theorem C4_duplicate_unique_insert_rejected (st : EngineState) (table_name : String)
    (table : Table) (columns : List String) (values : List Value)
    (htab : st.tables.lookup table_name = some table)
    (hdup : ∃ ucol ∈ table.unique_columns, ∃ v,
      dict_get (buildInsertRow table columns values) ucol = some v ∧
      ∃ er ∈ table.rows, dict_get er ucol = some v) :
    (∃ msg, (_insert st table_name columns values).2 = Except.error msg) ∧
    ((_insert st table_name columns values).1.tables.lookup table_name).map Table.rows
      = some table.rows ∧
    (_insert st table_name columns values).1.wal = st.wal := by
  have hdup2 : ∃ ucol ∈ (bumpNextId table columns).unique_columns, ∃ v,
      dict_get (buildInsertRow table columns values) ucol = some v ∧
      ∃ er ∈ (bumpNextId table columns).rows, dict_get er ucol = some v := by
    rw [bumpNextId_rows, bumpNextId_unique]
    exact hdup
  obtain ⟨u, hu⟩ := uniqueViolation_isSome _ _ hdup2
  refine ⟨⟨"Duplicate value for unique column " ++ u, ?_⟩, ?_, ?_⟩
  · simp only [_insert, htab, hu]
  · simp only [_insert, htab, hu]
    rw [lookup_assoc_set_self]
    simp [bumpNextId_rows]
  · simp only [_insert, htab, hu]

/-- Witness for `C4_duplicate_unique_insert_rejected`: re-inserting
`email='a'` into the concrete table `u`. -/
theorem C4_witness :
    (c5_state.tables.lookup "u" = some c5_old) ∧
    (∃ ucol ∈ c5_old.unique_columns, ∃ v,
      dict_get (buildInsertRow c5_old ["email"] [Value.str "a"]) ucol = some v ∧
      ∃ er ∈ c5_old.rows, dict_get er ucol = some v) ∧
    ((∃ msg, (_insert c5_state "u" ["email"] [Value.str "a"]).2 = Except.error msg) ∧
     ((_insert c5_state "u" ["email"] [Value.str "a"]).1.tables.lookup "u").map Table.rows
       = some c5_old.rows ∧
     (_insert c5_state "u" ["email"] [Value.str "a"]).1.wal = c5_state.wal) :=
  ⟨by decide,
   ⟨"email", by decide, Value.str "a", by decide,
    ⟨[("id", Value.int 1), ("email", Value.str "a")], by decide, by decide⟩⟩,
   C4_duplicate_unique_insert_rejected c5_state "u" c5_old ["email"] [Value.str "a"]
     (by decide)
     ⟨"email", by decide, Value.str "a", by decide,
      ⟨[("id", Value.int 1), ("email", Value.str "a")], by decide, by decide⟩⟩⟩

/-- **C9.** When a table has a primary key, the insert omits it, and the
insert then fails on a unique-constraint duplicate, the auto-increment
counter has nevertheless been advanced by one and is not restored — while no
row and no WAL entry is added. -/
theorem C9_failed_insert_advances_next_id (st : EngineState) (table_name : String)
    (table : Table) (columns : List String) (values : List Value) (pk : String)
    (htab : st.tables.lookup table_name = some table)
    (hpk : table.primary_key = some pk)
    (hnotin : columns.contains pk = false)
    (hdup : ∃ ucol ∈ table.unique_columns, ∃ v,
      dict_get (buildInsertRow table columns values) ucol = some v ∧
      ∃ er ∈ table.rows, dict_get er ucol = some v) :
    (∃ msg, (_insert st table_name columns values).2 = Except.error msg) ∧
    ((_insert st table_name columns values).1.tables.lookup table_name).map Table.next_id
      = some (table.next_id + 1) ∧
    ((_insert st table_name columns values).1.tables.lookup table_name).map Table.rows
      = some table.rows ∧
    (_insert st table_name columns values).1.wal = st.wal := by
  have hauto : autoAssignsPk table columns = true := by
    simp only [autoAssignsPk, hpk, hnotin]
    rfl
  have hdup2 : ∃ ucol ∈ (bumpNextId table columns).unique_columns, ∃ v,
      dict_get (buildInsertRow table columns values) ucol = some v ∧
      ∃ er ∈ (bumpNextId table columns).rows, dict_get er ucol = some v := by
    rw [bumpNextId_rows, bumpNextId_unique]
    exact hdup
  obtain ⟨u, hu⟩ := uniqueViolation_isSome _ _ hdup2
  refine ⟨⟨"Duplicate value for unique column " ++ u, ?_⟩, ?_, ?_, ?_⟩
  · simp only [_insert, htab, hu]
  · simp only [_insert, htab, hu]
    rw [lookup_assoc_set_self]
    simp [bumpNextId_next_id _ _ hauto]
  · simp only [_insert, htab, hu]
    rw [lookup_assoc_set_self]
    simp [bumpNextId_rows]
  · simp only [_insert, htab, hu]

/-- Witness for `C9_failed_insert_advances_next_id` at the concrete table
`u` (primary key `id` omitted by the insert, duplicate `email='a'`). -/
theorem C9_witness :
    (c5_state.tables.lookup "u" = some c5_old) ∧
    c5_old.primary_key = some "id" ∧
    (["email"].contains "id" = false) ∧
    (∃ ucol ∈ c5_old.unique_columns, ∃ v,
      dict_get (buildInsertRow c5_old ["email"] [Value.str "a"]) ucol = some v ∧
      ∃ er ∈ c5_old.rows, dict_get er ucol = some v) ∧
    ((∃ msg, (_insert c5_state "u" ["email"] [Value.str "a"]).2 = Except.error msg) ∧
     ((_insert c5_state "u" ["email"] [Value.str "a"]).1.tables.lookup "u").map Table.next_id
       = some (c5_old.next_id + 1) ∧
     ((_insert c5_state "u" ["email"] [Value.str "a"]).1.tables.lookup "u").map Table.rows
       = some c5_old.rows ∧
     (_insert c5_state "u" ["email"] [Value.str "a"]).1.wal = c5_state.wal) :=
  ⟨by decide, by decide, by decide,
   ⟨"email", by decide, Value.str "a", by decide,
    ⟨[("id", Value.int 1), ("email", Value.str "a")], by decide, by decide⟩⟩,
   C9_failed_insert_advances_next_id c5_state "u" c5_old ["email"] [Value.str "a"] "id"
     (by decide) (by decide) (by decide)
     ⟨"email", by decide, Value.str "a", by decide,
      ⟨[("id", Value.int 1), ("email", Value.str "a")], by decide, by decide⟩⟩⟩

/-! ### Claim C10: create_table over an existing table -/

/-- The canonical index key determines the column name (for a fixed table
name). -/
theorem canon_key_inj (tn c1 c2 : String)
    (h : tn ++ "_" ++ c1 ++ "_idx" = tn ++ "_" ++ c2 ++ "_idx") : c1 = c2 := by
  have h2 := congrArg String.data h
  simp only [String.data_append] at h2
  exact String.ext (List.append_cancel_left (List.append_cancel_right h2))

theorem create_index_tables (st : EngineState) (a b : String) (c : Option String) :
    (_create_index st a b c).tables = st.tables := rfl

theorem create_index_lookup_self (st : EngineState) (tn cn : String) (old : Table)
    (htab : st.tables.lookup tn = some old) :
    (_create_index st tn cn none).indexes.lookup (tn ++ "_" ++ cn ++ "_idx")
      = some ⟨tn, cn, (build_index old.rows cn).1, (build_index old.rows cn).2⟩ := by
  unfold _create_index
  simp only [htab, Option.getD]
  exact lookup_assoc_set_self _ _ _

theorem create_index_lookup_ne (st : EngineState) (tn cn : String) (key : String)
    (hne : tn ++ "_" ++ cn ++ "_idx" ≠ key) :
    (_create_index st tn cn none).indexes.lookup key = st.indexes.lookup key := by
  unfold _create_index
  exact lookup_assoc_set_ne _ _ _ _ hne

theorem pass_tables (tn : String) (acc : EngineState) (col : Column) :
    (_create_table_index_pass tn acc col).tables = acc.tables := by
  unfold _create_table_index_pass
  dsimp only
  split <;> split <;> rfl

theorem fold_pass_tables (tn : String) (cols : List Column) (st : EngineState) :
    (cols.foldl (_create_table_index_pass tn) st).tables = st.tables := by
  induction cols generalizing st with
  | nil => rfl
  | cons c cs ih => rw [List.foldl_cons, ih, pass_tables]

theorem pass_lookup_self (tn : String) (acc : EngineState) (col : Column) (old : Table)
    (htab : acc.tables.lookup tn = some old)
    (hflag : (col.is_primary || col.is_unique) = true) :
    (_create_table_index_pass tn acc col).indexes.lookup (tn ++ "_" ++ col.name ++ "_idx")
      = some ⟨tn, col.name, (build_index old.rows col.name).1,
              (build_index old.rows col.name).2⟩ := by
  unfold _create_table_index_pass
  dsimp only
  split
  · split
    · exact create_index_lookup_self _ _ _ _ (by rw [create_index_tables]; exact htab)
    · exact create_index_lookup_self _ _ _ _ htab
  · split
    · exact create_index_lookup_self _ _ _ _ htab
    · next hu hp =>
      rw [Bool.not_eq_true] at hu hp
      rw [hp, hu] at hflag
      simp at hflag

theorem pass_lookup_ne (tn : String) (acc : EngineState) (col : Column) (key : String)
    (hne : tn ++ "_" ++ col.name ++ "_idx" ≠ key) :
    (_create_table_index_pass tn acc col).indexes.lookup key = acc.indexes.lookup key := by
  unfold _create_table_index_pass
  dsimp only
  split <;> split <;>
    simp only [create_index_lookup_ne _ _ _ _ hne]

theorem fold_pass_lookup_frozen (tn key : String) (cols : List Column) (st : EngineState)
    (h : ∀ col ∈ cols, tn ++ "_" ++ col.name ++ "_idx" ≠ key) :
    (cols.foldl (_create_table_index_pass tn) st).indexes.lookup key
      = st.indexes.lookup key := by
  induction cols generalizing st with
  | nil => rfl
  | cons c cs ih =>
    rw [List.foldl_cons, ih _ (fun d hd => h d (List.mem_cons_of_mem _ hd)),
        pass_lookup_ne _ _ _ _ (h c (List.mem_cons_self _ _))]

theorem fold_pass_lookup (tn : String) (cols : List Column) (st : EngineState) (old : Table)
    (htab : st.tables.lookup tn = some old)
    (hnd : (cols.map Column.name).Nodup) :
    ∀ col ∈ cols, (col.is_primary || col.is_unique) = true →
      (cols.foldl (_create_table_index_pass tn) st).indexes.lookup
          (tn ++ "_" ++ col.name ++ "_idx")
        = some ⟨tn, col.name, (build_index old.rows col.name).1,
                (build_index old.rows col.name).2⟩ := by
  induction cols generalizing st with
  | nil => intro col h; simp at h
  | cons c cs ih =>
    intro col hmem hflag
    rw [List.foldl_cons]
    rcases List.mem_cons.mp hmem with rfl | hmem2
    · have hfrozen : ∀ d ∈ cs, tn ++ "_" ++ d.name ++ "_idx" ≠ tn ++ "_" ++ col.name ++ "_idx" := by
        intro d hd he
        have : d.name = col.name := canon_key_inj tn d.name col.name he
        rw [List.map_cons, List.nodup_cons] at hnd
        exact hnd.1 (this ▸ List.mem_map_of_mem Column.name hd)
      rw [fold_pass_lookup_frozen tn _ cs _ hfrozen]
      exact pass_lookup_self tn st col old htab hflag
    · have htab2 : (_create_table_index_pass tn st c).tables.lookup tn = some old := by
        rw [pass_tables]
        exact htab
      have hnd2 : (cs.map Column.name).Nodup := by
        rw [List.map_cons, List.nodup_cons] at hnd
        exact hnd.2
      exact ih _ htab2 hnd2 col hmem2 hflag

/-- **C10.** With a table already registered under the same name,
`create_table` succeeds: the new table is registered with an empty row
sequence, but every primary/unique index it registers is built by scanning
the rows of the previously registered table — those indexes can therefore
hold rows absent from the new table. -/
theorem C10_recreate_table_indexes_old_rows (st : EngineState) (table_name : String)
    (columns : List Column) (old : Table)
    (htab : st.tables.lookup table_name = some old)
    (hnd : (columns.map Column.name).Nodup) :
    ((_create_table st table_name columns).1.tables.lookup table_name).map Table.rows
      = some [] ∧
    ∀ col ∈ columns, (col.is_primary || col.is_unique) = true →
      (_create_table st table_name columns).1.indexes.lookup
          (table_name ++ "_" ++ col.name ++ "_idx")
        = some ⟨table_name, col.name, (build_index old.rows col.name).1,
                (build_index old.rows col.name).2⟩ := by
  constructor
  · have h1 : (_create_table st table_name columns).1.tables.lookup table_name
        = some (Table.init table_name columns
            (((columns.filter (fun c => c.is_primary)).getLast?).map (fun c => c.name))) :=
      lookup_assoc_set_self _ _ _
    rw [h1]
    rfl
  · intro col hmem hflag
    have h2 : (_create_table st table_name columns).1.indexes
        = (columns.foldl (_create_table_index_pass table_name) st).indexes := rfl
    rw [h2]
    exact fold_pass_lookup table_name columns st old htab hnd col hmem hflag

/-- Witness for `C10_recreate_table_indexes_old_rows`: re-creating the
concrete table `u` (one old row) with the same columns. -/
theorem C10_witness :
    (c5_state.tables.lookup "u" = some c5_old) ∧
    (c5_cols.map Column.name).Nodup ∧
    ((((_create_table c5_state "u" c5_cols).1.tables.lookup "u").map Table.rows
        = some []) ∧
     ∀ col ∈ c5_cols, (col.is_primary || col.is_unique) = true →
       (_create_table c5_state "u" c5_cols).1.indexes.lookup
           ("u" ++ "_" ++ col.name ++ "_idx")
         = some ⟨"u", col.name, (build_index c5_old.rows col.name).1,
                 (build_index c5_old.rows col.name).2⟩) :=
  ⟨by decide, by decide,
   C10_recreate_table_indexes_old_rows c5_state "u" c5_cols c5_old (by decide) (by decide)⟩

/-! ### Claim C8: snapshot round trip -/

/-- The table state the claim compares: column definitions, row contents,
primary key, unique columns, auto-increment counter. -/
def tableState (t : Table) : List Column × List Row × Option String × List String × Int :=
  (t.columns, t.rows, t.primary_key, t.unique_columns, t.next_id)

theorem load_snapshot_pass_tables (st : EngineState) (p : String × SnapshotTable) :
    (_load_snapshot_pass st p).tables = assoc_set st.tables p.1 (rebuildTable p.1 p.2) := by
  unfold _load_snapshot_pass
  dsimp only
  have hidx : ∀ (s : EngineState) (cols : List String),
      (cols.foldl (fun st col => _create_index st p.1 col none) s).tables = s.tables := by
    intro s cols
    induction cols generalizing s with
    | nil => rfl
    | cons c cs ih => rw [List.foldl_cons, ih, create_index_tables]
  rw [hidx]
  cases (rebuildTable p.1 p.2).primary_key <;> rfl

theorem load_snapshot_tables_aux (entries : List (String × SnapshotTable)) (st : EngineState)
    (hfresh : ∀ p ∈ entries, st.tables.any (fun q => q.1 == p.1) = false)
    (hnd : (entries.map Prod.fst).Nodup) :
    (entries.foldl _load_snapshot_pass st).tables
      = st.tables ++ entries.map (fun p => (p.1, rebuildTable p.1 p.2)) := by
  induction entries generalizing st with
  | nil => simp
  | cons p ps ih =>
    rw [List.foldl_cons]
    have h1 : (_load_snapshot_pass st p).tables = st.tables ++ [(p.1, rebuildTable p.1 p.2)] := by
      rw [load_snapshot_pass_tables]
      unfold assoc_set
      rw [if_neg]
      rw [hfresh p (List.mem_cons_self _ _)]
      simp
    rw [List.map_cons] at hnd ⊢
    rw [List.nodup_cons] at hnd
    have hfresh2 : ∀ q ∈ ps, (_load_snapshot_pass st p).tables.any (fun r => r.1 == q.1) = false := by
      intro q hq
      rw [h1, List.any_append]
      have hne : (p.1 == q.1) = false := by
        refine beq_eq_false_iff_ne.mpr (fun e => hnd.1 ?_)
        exact e ▸ List.mem_map_of_mem Prod.fst hq
      simp [hfresh q (List.mem_cons_of_mem _ hq), hne]
    rw [ih _ hfresh2 hnd.2, h1, List.append_assoc]
    rfl

/-- **C8.** Creating a snapshot of a table set and loading it into a fresh
engine reproduces, for every table, identical column definitions, rows,
primary key, unique columns and auto-increment counter. -/
theorem C8_snapshot_round_trip (tables : List (String × Table))
    (hnd : (tables.map Prod.fst).Nodup) :
    ((_load_from_snapshot EngineState.fresh (create_snapshot tables)).tables).map
        (fun p => (p.1, tableState p.2))
      = tables.map (fun p => (p.1, tableState p.2)) := by
  have hkeys : ((create_snapshot tables).tables.map Prod.fst) = tables.map Prod.fst := by
    unfold create_snapshot
    rw [List.map_map]
    rfl
  have h := load_snapshot_tables_aux (create_snapshot tables).tables EngineState.fresh
    (fun p _ => rfl) (by rw [hkeys]; exact hnd)
  unfold _load_from_snapshot
  rw [h]
  unfold create_snapshot
  have hfr : EngineState.fresh.tables = [] := rfl
  rw [hfr, List.nil_append, List.map_map, List.map_map]
  rfl

/-- Witness for `C8_snapshot_round_trip` at a concrete two-table set. -/
theorem C8_witness :
    (([("a", Table.init "a" c5_cols (some "id")), ("b", c5_old)].map Prod.fst).Nodup) ∧
    ((_load_from_snapshot EngineState.fresh
        (create_snapshot [("a", Table.init "a" c5_cols (some "id")), ("b", c5_old)])).tables).map
        (fun p => (p.1, tableState p.2))
      = [("a", Table.init "a" c5_cols (some "id")), ("b", c5_old)].map
          (fun p => (p.1, tableState p.2)) :=
  ⟨by decide,
   C8_snapshot_round_trip [("a", Table.init "a" c5_cols (some "id")), ("b", c5_old)]
     (by decide)⟩

/-! ### Claim C6: WAL LSNs -/

/-- The invariant `runWal` maintains in the absence of `clear()`: the
persisted LSNs are exactly `0, 1, ..., lsn_counter - 1`. -/
def walInv (w : WriteAheadLog) : Prop :=
  w.persisted.map WALEntry.lsn = List.range w.lsn_counter

theorem walInv_fresh : walInv WriteAheadLog.fresh := rfl

theorem append_persisted (w : WriteAheadLog) (operation table : String) (data : WalData) :
    (w.append operation table data).1.persisted
      = w.persisted ++ [⟨operation, table, data, w.lsn_counter⟩] := by
  unfold WriteAheadLog.append
  dsimp only
  split <;> rfl

theorem append_counter (w : WriteAheadLog) (operation table : String) (data : WalData) :
    (w.append operation table data).1.lsn_counter = w.lsn_counter + 1 := by
  unfold WriteAheadLog.append
  dsimp only
  split <;> rfl

theorem append_lsn (w : WriteAheadLog) (operation table : String) (data : WalData) :
    (w.append operation table data).2 = w.lsn_counter := rfl

theorem walInv_append (w : WriteAheadLog) (operation table : String) (data : WalData)
    (h : walInv w) : walInv (w.append operation table data).1 := by
  unfold walInv
  rw [append_persisted, append_counter, List.map_append, h, List.range_succ]
  rfl

theorem foldl_max_range (n : Nat) (acc : Nat) :
    (List.range n).foldl (fun a x => max a (x + 1)) acc = max acc n := by
  induction n generalizing acc with
  | zero => simp
  | succ m ih =>
    rw [List.range_succ, List.foldl_append]
    simp only [List.foldl_cons, List.foldl_nil, ih]
    omega

theorem walInv_load (l : List WALEntry) (n : Nat) (h : l.map WALEntry.lsn = List.range n) :
    walInv (WriteAheadLog.load l) ∧ (WriteAheadLog.load l).lsn_counter = n := by
  have hcnt : (WriteAheadLog.load l).lsn_counter = n := by
    show l.foldl (fun acc e => max acc (e.lsn + 1)) 0 = n
    rw [← List.foldl_map WALEntry.lsn (fun acc x => max acc (x + 1)) l 0, h,
        foldl_max_range]
    omega
  constructor
  · unfold walInv
    rw [hcnt]
    exact h
  · exact hcnt

/-- In a clear-free lifetime the appends return exactly the LSNs
`counter, counter+1, ...` and the invariant is maintained. -/
theorem runWal_no_clear (ops : List WalOp) (w : WriteAheadLog)
    (hinv : walInv w) (hnc : ∀ o ∈ ops, o ≠ WalOp.clear) :
    (runWal w ops).2 = List.range' w.lsn_counter (countAppends ops) ∧
    walInv (runWal w ops).1 := by
  induction ops generalizing w with
  | nil => exact ⟨rfl, hinv⟩
  | cons o os ih =>
    cases o with
    | append operation table data =>
      have h1 := ih (w.append operation table data).1
        (walInv_append w operation table data hinv)
        (fun o ho => hnc o (List.mem_cons_of_mem _ ho))
      unfold runWal
      dsimp only
      refine ⟨?_, h1.2⟩
      rw [h1.1, append_lsn, append_counter]
      have hcount : countAppends (WalOp.append operation table data :: os)
          = countAppends os + 1 := by
        unfold countAppends
        rw [List.countP_cons]
        simp
      rw [hcount, List.range'_succ]
    | restart =>
      have hload := walInv_load w.persisted w.lsn_counter hinv
      have h1 := ih (WriteAheadLog.load w.persisted) hload.1
        (fun o ho => hnc o (List.mem_cons_of_mem _ ho))
      unfold runWal
      refine ⟨?_, h1.2⟩
      rw [h1.1, hload.2]
      rfl
    | clear => exact absurd rfl (hnc WalOp.clear (List.mem_cons_self _ _))

/-- **C6** (counterexample): a `clear()` followed by a restart resets the LSN
counter, and the next append reuses LSN 0. -/
theorem C6_cex_clear_restart_reuses_lsn :
    (runWal WriteAheadLog.fresh
      [WalOp.append "INSERT" "t" (WalData.row []), WalOp.clear, WalOp.restart,
       WalOp.append "INSERT" "t" (WalData.row [])]).2 = [0, 0] ∧
    ¬ List.Chain' (· < ·)
        (runWal WriteAheadLog.fresh
          [WalOp.append "INSERT" "t" (WalData.row []), WalOp.clear, WalOp.restart,
           WalOp.append "INSERT" "t" (WalData.row [])]).2 := by
  have h0 : (runWal WriteAheadLog.fresh
      [WalOp.append "INSERT" "t" (WalData.row []), WalOp.clear, WalOp.restart,
       WalOp.append "INSERT" "t" (WalData.row [])]).2 = [0, 0] := by decide
  refine ⟨h0, ?_⟩
  rw [h0]
  simp [List.chain'_cons]

/-- **C6** (amended): across any sequence of appends and restarts **without
`clear()`**, the returned LSNs are exactly `0, 1, 2, ...` — strictly
increasing and never reused, with the counter resuming at one past the
maximum persisted LSN after each reload. -/
theorem C6_amended_lsns_strictly_increasing (ops : List WalOp)
    (hnc : ∀ o ∈ ops, o ≠ WalOp.clear) :
    (runWal WriteAheadLog.fresh ops).2 = List.range (countAppends ops) ∧
    List.Chain' (· < ·) (runWal WriteAheadLog.fresh ops).2 := by
  have h := runWal_no_clear ops WriteAheadLog.fresh walInv_fresh hnc
  have hr : (runWal WriteAheadLog.fresh ops).2 = List.range (countAppends ops) := by
    rw [h.1, List.range_eq_range']
    rfl
  exact ⟨hr, by rw [hr]; exact (List.pairwise_lt_range _).chain'⟩

/-- Witness for `C6_amended_lsns_strictly_increasing`: two appends around a
restart return LSNs 0 and 1. -/
theorem C6_amended_witness :
    (∀ o ∈ [WalOp.append "INSERT" "t" (WalData.row []), WalOp.restart,
            WalOp.append "INSERT" "t" (WalData.row [])], o ≠ WalOp.clear) ∧
    ((runWal WriteAheadLog.fresh
        [WalOp.append "INSERT" "t" (WalData.row []), WalOp.restart,
         WalOp.append "INSERT" "t" (WalData.row [])]).2
      = List.range (countAppends
          [WalOp.append "INSERT" "t" (WalData.row []), WalOp.restart,
           WalOp.append "INSERT" "t" (WalData.row [])]) ∧
     List.Chain' (· < ·) (runWal WriteAheadLog.fresh
        [WalOp.append "INSERT" "t" (WalData.row []), WalOp.restart,
         WalOp.append "INSERT" "t" (WalData.row [])]).2) :=
  ⟨by decide,
   C6_amended_lsns_strictly_increasing
     [WalOp.append "INSERT" "t" (WalData.row []), WalOp.restart,
      WalOp.append "INSERT" "t" (WalData.row [])] (by decide)⟩

/-! ### Claim C2: the node-format invariant

The amended claim: after any sequence of inserts every node's keys are
non-decreasing and number at most `order − 1`.  The proof threads the usual
B+ tree bounds invariant (`Good`): every key of a child sits between the
separators surrounding it in the parent. -/

/-- Optional lower bound. -/
def leO : Option κ → κ → Prop
  | none, _ => True
  | some l, k => l ≤ k

/-- Optional upper bound. -/
def geO : Option κ → κ → Prop
  | none, _ => True
  | some u, k => k ≤ u

/-- The separator structure of an internal node: child `j` is bounded below
by separator `j` (or the node's lower bound) and above by separator `j+1`
(or the node's upper bound), with exactly one more child than keys. -/
def GoodSeq {γ : Type} (P : Option κ → Option κ → γ → Prop) :
    Option κ → Option κ → List κ → List γ → Prop
  | lo, hi, [], [c] => P lo hi c
  | lo, hi, s :: ks, c :: cs => P lo (some s) c ∧ GoodSeq P (some s) hi ks cs
  | _, _, _, _ => False

/-- The full invariant: keys sorted and within bounds, at most `order − 1`
keys, parallel value list at a leaf, separator bounds at an internal node. -/
def Good : {h : Nat} → Option κ → Option κ → BNode κ h → Prop
  | 0, lo, hi, n =>
    List.Sorted (· ≤ ·) n.keys ∧ n.keys.length ≤ treeOrder - 1 ∧
    n.values.length = n.keys.length ∧ ∀ k ∈ n.keys, leO lo k ∧ geO hi k
  | h + 1, lo, hi, n =>
    List.Sorted (· ≤ ·) n.keys ∧ n.keys.length ≤ treeOrder - 1 ∧
    (∀ k ∈ n.keys, leO lo k ∧ geO hi k) ∧
    GoodSeq (fun lo hi (c : BNode κ h) => Good lo hi c) lo hi n.keys n.children

/-- What the claim asserts of every node: sorted keys, at most `order − 1`
of them. -/
def node_format_ok : {h : Nat} → BNode κ h → Prop
  | 0, n => List.Sorted (· ≤ ·) n.keys ∧ n.keys.length ≤ treeOrder - 1
  | _ + 1, n => (List.Sorted (· ≤ ·) n.keys ∧ n.keys.length ≤ treeOrder - 1) ∧
      ∀ c ∈ n.children, node_format_ok c

theorem GoodSeq_mem {γ : Type} (P : Option κ → Option κ → γ → Prop) :
    ∀ (lo hi : Option κ) (ks : List κ) (cs : List γ),
      GoodSeq P lo hi ks cs → ∀ c ∈ cs, ∃ lb ub, P lb ub c := by
  intro lo hi ks
  induction ks generalizing lo with
  | nil =>
    intro cs hg c hc
    match cs, hg with
    | [c0], hg =>
      rw [List.mem_singleton.mp hc]
      exact ⟨lo, hi, hg⟩
  | cons s ks ih =>
    intro cs hg c hc
    match cs, hg with
    | c0 :: cs', ⟨h1, h2⟩ =>
      rcases List.mem_cons.mp hc with rfl | hc'
      · exact ⟨lo, some s, h1⟩
      · exact ih (some s) cs' h2 c hc'

theorem Good_node_format : ∀ {h : Nat} (lo hi : Option κ) (n : BNode κ h),
    Good lo hi n → node_format_ok n := by
  intro h
  induction h with
  | zero => intro lo hi n hg; exact ⟨hg.1, hg.2.1⟩
  | succ m ih =>
    intro lo hi n hg
    refine ⟨⟨hg.1, hg.2.1⟩, ?_⟩
    intro c hc
    obtain ⟨lb, ub, hcg⟩ := GoodSeq_mem (fun lo hi (c : BNode κ m) => Good lo hi c) lo hi n.keys n.children hg.2.2.2 c hc
    exact ih lb ub c hcg

/-! #### Sorted insertion at `bisect_left` -/

theorem bisect_le_length (l : List κ) (a : κ) : bisect_left l a ≤ l.length :=
  List.countP_le_length _

theorem insertIdx_bisect_eq_orderedInsert (l : List κ) (a : κ)
    (hs : List.Sorted (· ≤ ·) l) :
    l.insertIdx (bisect_left l a) a = List.orderedInsert (· ≤ ·) a l := by
  induction l with
  | nil => rfl
  | cons b t ih =>
    by_cases hb : b < a
    · have h1 : bisect_left (b :: t) a = bisect_left t a + 1 := by
        unfold bisect_left
        rw [List.countP_cons]
        simp [hb]
      rw [h1, List.insertIdx_succ_cons, List.orderedInsert,
          if_neg (not_le.mpr hb), ih (List.sorted_cons.mp hs).2]
    · have h0 : bisect_left (b :: t) a = 0 := by
        unfold bisect_left
        rw [List.countP_cons]
        have ht : t.countP (fun x => decide (x < a)) = 0 := by
          rw [List.countP_eq_zero]
          intro x hx
          simp only [decide_eq_true_eq]
          exact not_lt.mpr (le_trans (not_lt.mp hb) ((List.sorted_cons.mp hs).1 x hx))
        simp [ht, hb]
      rw [h0, List.insertIdx_zero, List.orderedInsert, if_pos (not_lt.mp hb)]

theorem sorted_insertIdx_bisect (l : List κ) (a : κ) (hs : List.Sorted (· ≤ ·) l) :
    List.Sorted (· ≤ ·) (l.insertIdx (bisect_left l a) a) := by
  rw [insertIdx_bisect_eq_orderedInsert l a hs]
  exact List.Sorted.orderedInsert a l hs

theorem mem_insertIdx_bisect (l : List κ) (a x : κ) (hs : List.Sorted (· ≤ ·) l) :
    x ∈ l.insertIdx (bisect_left l a) a ↔ x = a ∨ x ∈ l := by
  rw [insertIdx_bisect_eq_orderedInsert l a hs]
  exact List.mem_orderedInsert (· ≤ ·)

theorem length_insertIdx_bisect (l : List κ) (a : κ) (hs : List.Sorted (· ≤ ·) l) :
    (l.insertIdx (bisect_left l a) a).length = l.length + 1 := by
  rw [insertIdx_bisect_eq_orderedInsert l a hs]
  exact List.orderedInsert_length (· ≤ ·) l a

/-! #### What `_split_child` does to the full child -/

/-- Lower half of a split node. -/
def splitLow : {h : Nat} → BNode κ h → BNode κ h
  | 0, c => ⟨c.keys.take (treeOrder / 2), c.values.take (treeOrder / 2)⟩
  | _ + 1, c => ⟨(c.keys.take (treeOrder / 2)).dropLast, c.children.take (treeOrder / 2)⟩

/-- Upper half of a split node (the new right sibling). -/
def splitHigh : {h : Nat} → BNode κ h → BNode κ h
  | 0, c => ⟨c.keys.drop (treeOrder / 2), c.values.drop (treeOrder / 2)⟩
  | _ + 1, c => ⟨c.keys.drop (treeOrder / 2), c.children.drop (treeOrder / 2)⟩

/-- The separator promoted into the parent: copied from the right half at a
leaf, moved out of the lower half at an internal node. -/
def splitSep : {h : Nat} → BNode κ h → κ
  | 0, c => (c.keys.drop (treeOrder / 2)).getD 0 default
  | _ + 1, c => (c.keys.take (treeOrder / 2)).getLastD default

theorem split_child_eq {h : Nat} (ks : List κ) (cs : List (BNode κ h)) (i : Nat)
    (c : BNode κ h) (hc : cs[i]? = some c) :
    _split_child ks cs i
      = (ks.insertIdx i (splitSep c),
         (cs.set i (splitLow c)).insertIdx (i + 1) (splitHigh c)) := by
  cases h with
  | zero =>
    show (match cs[i]? with
      | none => (ks, cs)
      | some full_node =>
        (ks.insertIdx i ((full_node.keys.drop (treeOrder / 2)).getD 0 default),
         (cs.set i (⟨full_node.keys.take (treeOrder / 2),
                     full_node.values.take (treeOrder / 2)⟩ : LeafNode κ)).insertIdx (i + 1)
           ⟨full_node.keys.drop (treeOrder / 2), full_node.values.drop (treeOrder / 2)⟩))
      = (ks.insertIdx i (splitSep c),
         (cs.set i (splitLow c)).insertIdx (i + 1) (splitHigh c))
    rw [hc]
    rfl
  | succ m =>
    show (match cs[i]? with
      | none => (ks, cs)
      | some full_node =>
        (ks.insertIdx i ((full_node.keys.take (treeOrder / 2)).getLastD default),
         (cs.set i (⟨(full_node.keys.take (treeOrder / 2)).dropLast,
                     full_node.children.take (treeOrder / 2)⟩ :
                    InnerNode κ (BNode κ m))).insertIdx (i + 1)
           ⟨full_node.keys.drop (treeOrder / 2), full_node.children.drop (treeOrder / 2)⟩))
      = (ks.insertIdx i (splitSep c),
         (cs.set i (splitLow c)).insertIdx (i + 1) (splitHigh c))
    rw [hc]
    rfl

theorem split_halves {h : Nat} (c : BNode κ h) (lb ub : Option κ)
    (hc : Good lb ub c) (hfull : keyCount c = treeOrder - 1) :
    Good lb (some (splitSep c)) (splitLow c) ∧
    Good (some (splitSep c)) ub (splitHigh c) ∧
    (leO lb (splitSep c) ∧ geO ub (splitSep c)) ∧
    keyCount (splitLow c) ≤ treeOrder - 2 ∧ keyCount (splitHigh c) ≤ treeOrder - 2 := by
  cases h with
  | zero =>
    obtain ⟨ks, vs⟩ := c
    obtain ⟨hs, hlen, hvlen, hb⟩ := hc
    obtain ⟨k1, k2, k3, rfl⟩ := List.length_eq_three.mp hfull
    have hv3 : vs.length = 3 := hvlen
    obtain ⟨v1, v2, v3, rfl⟩ := List.length_eq_three.mp hv3
    simp only [List.sorted_cons, List.mem_cons, List.not_mem_nil, or_false,
      List.sorted_nil, and_true, forall_eq_or_imp, forall_eq, IsEmpty.forall_iff,
      implies_true, true_and] at hs hb
    refine ⟨⟨?_, ?_, ?_, ?_⟩, ⟨?_, ?_, ?_, ?_⟩, ⟨?_, ?_⟩, ?_, ?_⟩
    · show List.Sorted (· ≤ ·) [k1, k2]
      simp [List.sorted_cons]
      exact hs.1.1
    · show (2 : Nat) ≤ 3
      omega
    · rfl
    · show ∀ k ∈ [k1, k2], leO lb k ∧ geO (some k3) k
      intro k hk
      rcases List.mem_cons.mp hk with rfl | hk
      · exact ⟨hb.1.1, hs.1.2⟩
      · rw [List.mem_singleton.mp hk]
        exact ⟨hb.2.1.1, hs.2⟩
    · show List.Sorted (· ≤ ·) [k3]
      simp
    · show (1 : Nat) ≤ 3
      omega
    · rfl
    · show ∀ k ∈ [k3], leO (some k3) k ∧ geO ub k
      intro k hk
      rw [List.mem_singleton.mp hk]
      exact ⟨le_refl _, hb.2.2.2⟩
    · exact hb.2.2.1
    · exact hb.2.2.2
    · show (2 : Nat) ≤ 2
      omega
    · show (1 : Nat) ≤ 2
      omega
  | succ m =>
    obtain ⟨ks, cs⟩ := c
    obtain ⟨hs, hlen, hb, hseq⟩ := hc
    obtain ⟨s1, s2, s3, rfl⟩ := List.length_eq_three.mp hfull
    rcases cs with _ | ⟨d0, cs⟩
    · exact absurd hseq (by simp [GoodSeq])
    rcases cs with _ | ⟨d1, cs⟩
    · exact absurd hseq.2 (by simp [GoodSeq])
    rcases cs with _ | ⟨d2, cs⟩
    · exact absurd hseq.2.2 (by simp [GoodSeq])
    rcases cs with _ | ⟨d3, cs⟩
    · exact absurd hseq.2.2.2 (by simp [GoodSeq])
    rcases cs with _ | ⟨d4, cs⟩
    swap
    · exact absurd hseq.2.2.2 (by simp [GoodSeq])
    obtain ⟨hd0, hd1, hd2, hd3⟩ :
        Good lb (some s1) d0 ∧ Good (some s1) (some s2) d1 ∧
        Good (some s2) (some s3) d2 ∧ Good (some s3) ub d3 :=
      ⟨hseq.1, hseq.2.1, hseq.2.2.1, hseq.2.2.2⟩
    simp only [List.sorted_cons, List.mem_cons, List.not_mem_nil, or_false,
      List.sorted_nil, and_true, forall_eq_or_imp, forall_eq, IsEmpty.forall_iff,
      implies_true, true_and] at hs hb
    refine ⟨⟨?_, ?_, ?_, ?_⟩, ⟨?_, ?_, ?_, ?_⟩, ⟨?_, ?_⟩, ?_, ?_⟩
    · show List.Sorted (· ≤ ·) [s1]
      simp
    · show (1 : Nat) ≤ 3
      omega
    · show ∀ k ∈ [s1], leO lb k ∧ geO (some s2) k
      intro k hk
      rw [List.mem_singleton.mp hk]
      exact ⟨hb.1.1, hs.1.1⟩
    · exact ⟨hd0, hd1⟩
    · show List.Sorted (· ≤ ·) [s3]
      simp
    · show (1 : Nat) ≤ 3
      omega
    · show ∀ k ∈ [s3], leO (some s2) k ∧ geO ub k
      intro k hk
      rw [List.mem_singleton.mp hk]
      exact ⟨hs.2, hb.2.2.2⟩
    · exact ⟨hd2, hd3⟩
    · exact hb.2.1.1
    · exact hb.2.1.2
    · show (1 : Nat) ≤ 2
      omega
    · show (1 : Nat) ≤ 2
      omega

/-! #### Navigation and split preservation -/

theorem leO_trans (lo : Option κ) (a b : κ) (h1 : leO lo a) (h2 : a ≤ b) : leO lo b := by
  cases lo with
  | none => trivial
  | some l => exact le_trans h1 h2

theorem geO_trans (hi : Option κ) (a b : κ) (h1 : a ≤ b) (h2 : geO hi b) : geO hi a := by
  cases hi with
  | none => trivial
  | some u => exact le_trans h1 h2

theorem bisect_cons_lt (s : κ) (ks : List κ) (key : κ) (h : s < key) :
    bisect_left (s :: ks) key = bisect_left ks key + 1 := by
  unfold bisect_left
  rw [List.countP_cons]
  simp [h]

theorem bisect_cons_ge (s : κ) (ks : List κ) (key : κ) (h : ¬ s < key)
    (hs : List.Sorted (· ≤ ·) (s :: ks)) :
    bisect_left (s :: ks) key = 0 := by
  unfold bisect_left
  rw [List.countP_cons]
  have ht : ks.countP (fun x => decide (x < key)) = 0 := by
    rw [List.countP_eq_zero]
    intro x hx
    simp only [decide_eq_true_eq]
    exact not_lt.mpr (le_trans (not_lt.mp h) ((List.sorted_cons.mp hs).1 x hx))
  simp [ht, h]

theorem Good_keyCount {h : Nat} (lb ub : Option κ) (c : BNode κ h) (hg : Good lb ub c) :
    keyCount c ≤ treeOrder - 1 := by
  cases h
  · exact hg.2.1
  · exact hg.2.1

theorem GoodSeq_navigate {h : Nat} (key : κ) :
    ∀ (ks : List κ) (cs : List (BNode κ h)) (lo hi : Option κ),
      List.Sorted (· ≤ ·) ks →
      GoodSeq (fun lo hi (c : BNode κ h) => Good lo hi c) lo hi ks cs →
      leO lo key → geO hi key →
      ∃ c lb ub, cs[bisect_left ks key]? = some c ∧ Good lb ub c ∧
        leO lb key ∧ geO ub key ∧
        ∀ c' : BNode κ h, Good lb ub c' →
          GoodSeq (fun lo hi (c : BNode κ h) => Good lo hi c) lo hi ks
            (cs.set (bisect_left ks key) c') := by
  intro ks
  induction ks with
  | nil =>
    intro cs lo hi hsrt hg hlo hhi
    match cs, hg with
    | [c0], hg =>
      refine ⟨c0, lo, hi, rfl, hg, hlo, hhi, ?_⟩
      intro c' hc'
      exact hc'
  | cons s ks ih =>
    intro cs lo hi hsrt hg hlo hhi
    match cs, hg with
    | c0 :: cs', ⟨h1, h2⟩ =>
      by_cases hlt : s < key
      · rw [bisect_cons_lt s ks key hlt]
        obtain ⟨c, lb, ub, hc, hcg, hclo, hchi, hrepl⟩ :=
          ih cs' (some s) hi (List.sorted_cons.mp hsrt).2 h2 (le_of_lt hlt) hhi
        refine ⟨c, lb, ub, ?_, hcg, hclo, hchi, ?_⟩
        · rw [List.getElem?_cons_succ]
          exact hc
        · intro c' hc'
          rw [List.set_cons_succ]
          exact ⟨h1, hrepl c' hc'⟩
      · rw [bisect_cons_ge s ks key hlt hsrt]
        refine ⟨c0, lo, some s, by simp, h1, hlo, not_lt.mp hlt, ?_⟩
        intro c' hc'
        exact ⟨hc', h2⟩

theorem split_child_none {h : Nat} (ks : List κ) (cs : List (BNode κ h)) (i : Nat)
    (hc : cs[i]? = none) : _split_child ks cs i = (ks, cs) := by
  cases h with
  | zero =>
    show (match cs[i]? with
      | none => (ks, cs)
      | some full_node =>
        (ks.insertIdx i ((full_node.keys.drop (treeOrder / 2)).getD 0 default),
         (cs.set i (⟨full_node.keys.take (treeOrder / 2),
                     full_node.values.take (treeOrder / 2)⟩ : LeafNode κ)).insertIdx (i + 1)
           ⟨full_node.keys.drop (treeOrder / 2), full_node.values.drop (treeOrder / 2)⟩))
      = (ks, cs)
    rw [hc]
  | succ m =>
    show (match cs[i]? with
      | none => (ks, cs)
      | some full_node =>
        (ks.insertIdx i ((full_node.keys.take (treeOrder / 2)).getLastD default),
         (cs.set i (⟨(full_node.keys.take (treeOrder / 2)).dropLast,
                     full_node.children.take (treeOrder / 2)⟩ :
                    InnerNode κ (BNode κ m))).insertIdx (i + 1)
           ⟨full_node.keys.drop (treeOrder / 2), full_node.children.drop (treeOrder / 2)⟩))
      = (ks, cs)
    rw [hc]

theorem split_child_cons {h : Nat} (s : κ) (ks : List κ) (c0 : BNode κ h)
    (cs : List (BNode κ h)) (i : Nat) :
    _split_child (s :: ks) (c0 :: cs) (i + 1)
      = (s :: (_split_child ks cs i).1, c0 :: (_split_child ks cs i).2) := by
  cases hc : cs[i]? with
  | none =>
    have h1 : (c0 :: cs)[i + 1]? = none := by
      rw [List.getElem?_cons_succ]
      exact hc
    rw [split_child_none _ _ _ h1, split_child_none _ _ _ hc]
  | some c =>
    have h1 : (c0 :: cs)[i + 1]? = some c := by
      rw [List.getElem?_cons_succ]
      exact hc
    rw [split_child_eq _ _ _ _ h1, split_child_eq _ _ _ _ hc,
        List.insertIdx_succ_cons, List.set_cons_succ, List.insertIdx_succ_cons]

theorem GoodSeq_split {h : Nat} (key : κ) :
    ∀ (ks : List κ) (cs : List (BNode κ h)) (lo hi : Option κ),
      List.Sorted (· ≤ ·) ks → (∀ k ∈ ks, leO lo k ∧ geO hi k) →
      GoodSeq (fun lo hi (c : BNode κ h) => Good lo hi c) lo hi ks cs →
      ∀ c, cs[bisect_left ks key]? = some c → keyCount c = treeOrder - 1 →
      List.Sorted (· ≤ ·) (_split_child ks cs (bisect_left ks key)).1 ∧
      (∀ k ∈ (_split_child ks cs (bisect_left ks key)).1, leO lo k ∧ geO hi k) ∧
      GoodSeq (fun lo hi (c : BNode κ h) => Good lo hi c) lo hi
        (_split_child ks cs (bisect_left ks key)).1
        (_split_child ks cs (bisect_left ks key)).2 ∧
      (_split_child ks cs (bisect_left ks key)).1.length = ks.length + 1 ∧
      (_split_child ks cs (bisect_left ks key)).1.getD (bisect_left ks key) default
        = splitSep c ∧
      (_split_child ks cs (bisect_left ks key)).2[bisect_left ks key]?
        = some (splitLow c) ∧
      (_split_child ks cs (bisect_left ks key)).2[bisect_left ks key + 1]?
        = some (splitHigh c) := by
  intro ks
  induction ks with
  | nil =>
    intro cs lo hi hsrt hb hg c hc hfull
    match cs, hg with
    | [c0], hg =>
      have hc0 : c = c0 := by
        have : ([c0] : List (BNode κ h))[bisect_left [] key]? = some c0 := by simp [bisect_left]
        rw [hc] at this
        exact Option.some_inj.mp this
      subst hc0
      obtain ⟨hgl, hgh, ⟨hsl, hsh⟩, _hkl, _hkh⟩ := split_halves c lo hi hg hfull
      rw [split_child_eq ([] : List κ) [c] (bisect_left [] key) c hc]
      have hb0 : bisect_left ([] : List κ) key = 0 := rfl
      rw [hb0]
      refine ⟨?_, ?_, ?_, ?_, ?_, ?_, ?_⟩
      · show List.Sorted (· ≤ ·) [splitSep c]
        simp
      · show ∀ k ∈ [splitSep c], leO lo k ∧ geO hi k
        intro k hk
        rw [List.mem_singleton.mp hk]
        exact ⟨hsl, hsh⟩
      · exact ⟨hgl, hgh⟩
      · rfl
      · simp
      · simp
      · simp
  | cons s ks ih =>
    intro cs lo hi hsrt hb hg c hc hfull
    match cs, hg with
    | c0 :: cs', ⟨h1, h2⟩ =>
      by_cases hlt : s < key
      · rw [bisect_cons_lt s ks key hlt] at hc ⊢
        rw [List.getElem?_cons_succ] at hc
        have hbtail : ∀ k ∈ ks, leO (some s) k ∧ geO hi k := by
          intro k hk
          exact ⟨(List.sorted_cons.mp hsrt).1 k hk, (hb k (List.mem_cons_of_mem _ hk)).2⟩
        obtain ⟨ihs, ihb, ihg, ihlen, ihget, ihlow, ihhigh⟩ :=
          ih cs' (some s) hi (List.sorted_cons.mp hsrt).2 hbtail h2 c hc hfull
        rw [split_child_cons]
        refine ⟨?_, ?_, ?_, ?_, ?_, ?_, ?_⟩
        · rw [List.sorted_cons]
          exact ⟨fun b hbm => ihb b hbm |>.1, ihs⟩
        · intro k hk
          rcases List.mem_cons.mp hk with rfl | hk
          · exact hb k (List.mem_cons_self _ _)
          · exact ⟨leO_trans lo s k (hb s (List.mem_cons_self _ _)).1 (ihb k hk).1,
                   (ihb k hk).2⟩
        · exact ⟨h1, ihg⟩
        · simp [ihlen]
        · rw [List.getD_cons_succ]
          exact ihget
        · rw [List.getElem?_cons_succ]
          exact ihlow
        · rw [List.getElem?_cons_succ]
          exact ihhigh
      · rw [bisect_cons_ge s ks key hlt hsrt] at hc ⊢
        have hc0 : c = c0 := by
          rw [show ((c0 :: cs' : List (BNode κ h))[0]? = some c0) by simp] at hc
          exact (Option.some_inj.mp hc).symm
        subst hc0
        obtain ⟨hgl, hgh, ⟨hsl, hsh⟩, _hkl, _hkh⟩ := split_halves c lo (some s) h1 hfull
        rw [split_child_eq (s :: ks) (c :: cs') 0 c (by simp)]
        have hne1 : (s :: ks).insertIdx 0 (splitSep c) = splitSep c :: s :: ks := rfl
        have hne2 : (((c :: cs').set 0 (splitLow c)).insertIdx 1 (splitHigh c))
            = splitLow c :: splitHigh c :: cs' := rfl
        rw [hne1, hne2]
        refine ⟨?_, ?_, ?_, ?_, ?_, ?_, ?_⟩
        · rw [List.sorted_cons]
          refine ⟨?_, hsrt⟩
          intro b hbm
          rcases List.mem_cons.mp hbm with rfl | hbm
          · exact hsh
          · exact le_trans hsh ((List.sorted_cons.mp hsrt).1 b hbm)
        · intro k hk
          rcases List.mem_cons.mp hk with rfl | hk
          · exact ⟨hsl, geO_trans hi (splitSep c) s hsh (hb s (List.mem_cons_self _ _)).2⟩
          · exact hb k hk
        · exact ⟨hgl, hgh, h2⟩
        · rfl
        · simp
        · simp
        · simp

theorem bisect_insertIdx (ks : List κ) (j : Nat) (sep key : κ) (hj : j ≤ ks.length) :
    bisect_left (ks.insertIdx j sep) key
      = if sep < key then bisect_left ks key + 1 else bisect_left ks key := by
  unfold bisect_left
  rw [(List.perm_insertIdx sep ks hj).countP_eq, List.countP_cons]
  by_cases hsep : sep < key
  · simp [hsep]
  · simp [hsep]

theorem insert_non_full_succ_eq {h : Nat} (ks : List κ) (cs : List (BNode κ h))
    (key : κ) (value : Nat) :
    _insert_non_full (⟨ks, cs⟩ : BNode κ (h + 1)) key value
      = (let i0 := bisect_left ks key
         let needSplit := match cs[i0]? with
           | some c => decide (treeOrder - 1 ≤ keyCount c)
           | none => false
         let ps := if needSplit then _split_child ks cs i0 else (ks, cs)
         let i := if needSplit && decide (ps.1.getD i0 default < key) then i0 + 1 else i0
         match ps.2[i]? with
         | none => ⟨ps.1, ps.2⟩
         | some c => ⟨ps.1, ps.2.set i (_insert_non_full c key value)⟩ :
           BNode κ (h + 1)) := rfl

theorem insert_non_full_nosplit_eq {h : Nat} (ks : List κ) (cs : List (BNode κ h))
    (key : κ) (value : Nat) (c : BNode κ h)
    (hc : cs[bisect_left ks key]? = some c)
    (hnf : ¬ (treeOrder - 1 ≤ keyCount c)) :
    @_insert_non_full κ _ _ (h + 1) ⟨ks, cs⟩ key value
      = ⟨ks, cs.set (bisect_left ks key) (_insert_non_full c key value)⟩ := by
  rw [insert_non_full_succ_eq]
  simp only [hc, decide_eq_false hnf, Bool.false_and, Bool.false_eq_true, if_false]

theorem insert_non_full_split_hi_eq {h : Nat} (ks : List κ) (cs : List (BNode κ h))
    (key : κ) (value : Nat) (c c2 : BNode κ h)
    (hc : cs[bisect_left ks key]? = some c)
    (hf : treeOrder - 1 ≤ keyCount c)
    (hget : (_split_child ks cs (bisect_left ks key)).1.getD (bisect_left ks key) default
      = splitSep c)
    (hsep : splitSep c < key)
    (hc2 : (_split_child ks cs (bisect_left ks key)).2[bisect_left ks key + 1]? = some c2) :
    @_insert_non_full κ _ _ (h + 1) ⟨ks, cs⟩ key value
      = ⟨(_split_child ks cs (bisect_left ks key)).1,
         (_split_child ks cs (bisect_left ks key)).2.set (bisect_left ks key + 1)
           (_insert_non_full c2 key value)⟩ := by
  rw [insert_non_full_succ_eq]
  simp only [hc, decide_eq_true hf, eq_self_iff_true, if_true, Bool.true_and, hget,
    decide_eq_true hsep, hc2]

theorem insert_non_full_split_lo_eq {h : Nat} (ks : List κ) (cs : List (BNode κ h))
    (key : κ) (value : Nat) (c c2 : BNode κ h)
    (hc : cs[bisect_left ks key]? = some c)
    (hf : treeOrder - 1 ≤ keyCount c)
    (hget : (_split_child ks cs (bisect_left ks key)).1.getD (bisect_left ks key) default
      = splitSep c)
    (hsep : ¬ splitSep c < key)
    (hc2 : (_split_child ks cs (bisect_left ks key)).2[bisect_left ks key]? = some c2) :
    @_insert_non_full κ _ _ (h + 1) ⟨ks, cs⟩ key value
      = ⟨(_split_child ks cs (bisect_left ks key)).1,
         (_split_child ks cs (bisect_left ks key)).2.set (bisect_left ks key)
           (_insert_non_full c2 key value)⟩ := by
  rw [insert_non_full_succ_eq]
  simp only [hc, decide_eq_true hf, eq_self_iff_true, if_true, Bool.true_and, hget,
    decide_eq_false hsep, Bool.false_eq_true, if_false, hc2]

/-- `_insert_non_full` preserves the bounds invariant on a non-full node
whose bounds admit the key. -/
theorem good_insert_non_full : ∀ {h : Nat} (c : BNode κ h) (lb ub : Option κ)
    (key : κ) (value : Nat),
    Good lb ub c → keyCount c ≤ treeOrder - 2 → leO lb key → geO ub key →
    Good lb ub (_insert_non_full c key value) := by
  intro h
  induction h with
  | zero =>
    intro c lb ub key value hg hcap hlo hhi
    obtain ⟨ks, vs⟩ := c
    obtain ⟨hs, hlen, hvlen, hb⟩ := hg
    refine ⟨sorted_insertIdx_bisect ks key hs, ?_, ?_, ?_⟩
    · show (ks.insertIdx (bisect_left ks key) key).length ≤ treeOrder - 1
      rw [length_insertIdx_bisect ks key hs]
      have hx : ks.length ≤ 2 := hcap
      show ks.length + 1 ≤ 3
      omega
    · show (vs.insertIdx (bisect_left ks key) value).length
        = (ks.insertIdx (bisect_left ks key) key).length
      rw [length_insertIdx_bisect ks key hs,
          List.length_insertIdx _ _ (by rw [hvlen]; exact bisect_le_length ks key), hvlen]
    · intro k hk
      rcases (mem_insertIdx_bisect ks key k hs).mp hk with rfl | hk
      · exact ⟨hlo, hhi⟩
      · exact hb k hk
  | succ m ih =>
    intro c lb ub key value hg hcap hlo hhi
    obtain ⟨ks, cs⟩ := c
    obtain ⟨hs, hlen, hb, hseq⟩ := hg
    have hcap2 : ks.length ≤ treeOrder - 2 := hcap
    obtain ⟨c, lb2, ub2, hc, hcg, hclo, hchi, hrepl⟩ :=
      GoodSeq_navigate key ks cs lb ub hs hseq hlo hhi
    by_cases hfull : treeOrder - 1 ≤ keyCount c
    · have hfl : keyCount c = treeOrder - 1 :=
        le_antisymm (Good_keyCount lb2 ub2 c hcg) hfull
      obtain ⟨hs', hb', hseq', hlen', hget', hlow', hhigh'⟩ :=
        GoodSeq_split key ks cs lb ub hs hb hseq c hc hfl
      have hps1 : (_split_child ks cs (bisect_left ks key)).1
          = ks.insertIdx (bisect_left ks key) (splitSep c) := by
        rw [split_child_eq ks cs (bisect_left ks key) c hc]
      have hbis : bisect_left (_split_child ks cs (bisect_left ks key)).1 key
          = if splitSep c < key then bisect_left ks key + 1 else bisect_left ks key := by
        rw [hps1]
        exact bisect_insertIdx ks (bisect_left ks key) (splitSep c) key
          (bisect_le_length ks key)
      obtain ⟨c2, lb3, ub3, hc2, hcg2, hclo2, hchi2, hrepl2⟩ :=
        GoodSeq_navigate key (_split_child ks cs (bisect_left ks key)).1
          (_split_child ks cs (bisect_left ks key)).2 lb ub hs' hseq' hlo hhi
      obtain ⟨_, _, _, hkl, hkh⟩ := split_halves c lb2 ub2 hcg hfl
      by_cases hsep : splitSep c < key
      · rw [hbis, if_pos hsep] at hc2
        have he : c2 = splitHigh c := Option.some_inj.mp (hc2.symm.trans hhigh')
        have hcap3 : keyCount c2 ≤ treeOrder - 2 := by
          rw [he]
          exact hkh
        have hrec := ih c2 lb3 ub3 key value hcg2 hcap3 hclo2 hchi2
        have hgseq := hrepl2 _ hrec
        rw [hbis, if_pos hsep] at hgseq
        rw [insert_non_full_split_hi_eq ks cs key value c c2 hc hfull hget' hsep hc2]
        refine ⟨hs', ?_, hb', hgseq⟩
        rw [hlen']
        have hx : ks.length ≤ 2 := hcap2
        show ks.length + 1 ≤ 3
        omega
      · rw [hbis, if_neg hsep] at hc2
        have he : c2 = splitLow c := Option.some_inj.mp (hc2.symm.trans hlow')
        have hcap3 : keyCount c2 ≤ treeOrder - 2 := by
          rw [he]
          exact hkl
        have hrec := ih c2 lb3 ub3 key value hcg2 hcap3 hclo2 hchi2
        have hgseq := hrepl2 _ hrec
        rw [hbis, if_neg hsep] at hgseq
        rw [insert_non_full_split_lo_eq ks cs key value c c2 hc hfull hget' hsep hc2]
        refine ⟨hs', ?_, hb', hgseq⟩
        rw [hlen']
        have hx : ks.length ≤ 2 := hcap2
        show ks.length + 1 ≤ 3
        omega
    · have hrec := ih c lb2 ub2 key value hcg (by
        have hx := Good_keyCount lb2 ub2 c hcg
        have hx2 : keyCount c ≤ 3 := hx
        have hx3 : ¬ (3 ≤ keyCount c) := hfull
        show keyCount c ≤ 2
        omega) hclo hchi
      rw [insert_non_full_nosplit_eq ks cs key value c hc hfull]
      refine ⟨hs, ?_, hb, hrepl _ hrec⟩
      have hx : ks.length ≤ 2 := hcap2
      show ks.length ≤ 3
      omega

/-! #### The invariant at tree level -/

/-- Invariant of a whole tree: the root is `Good` with no outer bounds. -/
def GoodTree (t : BPlusTree κ) : Prop := Good none none t.root

theorem good_empty : GoodTree (BPlusTree.empty : BPlusTree κ) :=
  ⟨List.sorted_nil, by show (0 : Nat) ≤ 3; omega, rfl,
   fun k hk => absurd hk (List.not_mem_nil k)⟩

theorem good_insert (t : BPlusTree κ) (key : κ) (value : Nat) (hg : GoodTree t) :
    GoodTree (t.insert key value) := by
  unfold BPlusTree.insert
  by_cases hfull : treeOrder - 1 ≤ keyCount t.root
  · rw [if_pos hfull]
    have hfl : keyCount t.root = treeOrder - 1 :=
      le_antisymm (Good_keyCount none none t.root hg) hfull
    have hc0 : ([t.root])[0]? = some t.root := by simp
    have hsp := split_child_eq ([] : List κ) [t.root] 0 t.root hc0
    obtain ⟨hlow, hhigh, _, _, _⟩ := split_halves t.root none none hg hfl
    have h1 : (_split_child ([] : List κ) [t.root] 0).1 = [splitSep t.root] := by
      rw [hsp]
      simp
    have h2 : (_split_child ([] : List κ) [t.root] 0).2
        = [splitLow t.root, splitHigh t.root] := by
      rw [hsp]
      simp [List.insertIdx_succ_cons]
    show Good none none
      (@_insert_non_full κ _ _ (t.height + 1)
        ⟨(_split_child ([] : List κ) [t.root] 0).1,
         (_split_child ([] : List κ) [t.root] 0).2⟩ key value)
    rw [h1, h2]
    have hroot : @Good κ _ (t.height + 1) none none
        ⟨[splitSep t.root], [splitLow t.root, splitHigh t.root]⟩ := by
      refine ⟨by simp, by show (1 : Nat) ≤ 3; omega, fun k hk => ⟨trivial, trivial⟩, ?_⟩
      exact ⟨hlow, hhigh⟩
    exact good_insert_non_full _ none none key value hroot
      (by show (1 : Nat) ≤ 2; omega) trivial trivial
  · rw [if_neg hfull]
    show Good none none (_insert_non_full t.root key value)
    have hcap : keyCount t.root ≤ treeOrder - 2 := by
      have hx : ¬ (3 ≤ keyCount t.root) := hfull
      show keyCount t.root ≤ 2
      omega
    exact good_insert_non_full t.root none none key value hg hcap trivial trivial

theorem good_index_add (t : BPlusTree κ) (store : List (List ρ)) (key : κ) (row : ρ)
    (hg : GoodTree t) : GoodTree (index_add t store key row).1 := by
  unfold index_add
  split
  · split
    · split
      · exact good_insert t key store.length hg
      · exact good_insert t key _ hg
    · exact good_insert t key store.length hg
  · exact good_insert t key store.length hg

theorem good_index_add_all (ops : List (κ × ρ)) : GoodTree (index_add_all ops).1 := by
  unfold index_add_all
  suffices h : ∀ (init : BPlusTree κ × List (List ρ)), GoodTree init.1 →
      GoodTree (ops.foldl (fun ts p => index_add ts.1 ts.2 p.1 p.2) init).1 from
    h (BPlusTree.empty, []) good_empty
  induction ops with
  | nil => intro init h; exact h
  | cons p ops ih =>
    intro init h
    exact ih (index_add init.1 init.2 p.1 p.2) (good_index_add init.1 init.2 p.1 p.2 h)

theorem node_format_all_keys : ∀ {h : Nat} (n : BNode κ h), node_format_ok n →
    ∀ ks ∈ all_node_keys n, List.Sorted (· ≤ ·) ks ∧ ks.length ≤ treeOrder - 1 := by
  intro h
  induction h with
  | zero =>
    intro n hf ks hks
    rw [List.mem_singleton.mp hks]
    exact hf
  | succ m ih =>
    intro n hf ks hks
    rcases List.mem_cons.mp hks with rfl | hks
    · exact hf.1
    · obtain ⟨c, hc, hks2⟩ := List.mem_flatMap.mp hks
      exact ih c (hf.2 c hc) ks hks2

/-- **C2** (amended): after any sequence of insertions performed the way the
Engine maintains buckets, every node of the TreeIndex holds keys that are
sorted in non-decreasing order and number at most `order − 1` (= 3).  The
original claim's uniqueness part is false: re-inserting an existing key
duplicates it inside a leaf (see the counterexample), so within a node keys
are non-decreasing but not necessarily strictly ascending. -/
theorem C2_amended_nodes_sorted_and_bounded (ops : List (Int × Nat)) :
    ∀ ks ∈ all_node_keys (index_add_all ops).1.root,
      List.Sorted (· ≤ ·) ks ∧ ks.length ≤ treeOrder - 1 :=
  node_format_all_keys (index_add_all ops).1.root
    (Good_node_format none none (index_add_all ops).1.root (good_index_add_all ops))

theorem C2_amended_sorted_witness :
    [1, 1] ∈ all_node_keys (index_add_all [((1 : Int), 1), (1, 2)]).1.root ∧
    (List.Sorted (· ≤ ·) [(1 : Int), 1] ∧ [(1 : Int), 1].length ≤ treeOrder - 1) :=
  ⟨by decide,
   C2_amended_nodes_sorted_and_bounded [((1 : Int), 1), (1, 2)] [1, 1] (by decide)⟩
